import Mathlib

/-!
# mimpls: the CLSP formulation of `clsp.cpp` and the loader of `mimpls.cpp`

A shallow embedding of

* `read_problem_data` (mimpls.cpp), the loader of a Trigeiro instance file,
* `solve_MIP` (clsp.cpp), as far as it declares the decision variables,
* `define_ilo_model` (clsp.cpp), which posts the constraints and the objective,
* `solve_CLSP` (clsp.cpp), with the outcome of the external solver as an input,
* `print_results` (clsp.cpp), as far as it recomputes utilisation and cost,
* `parseOptions` (options.cpp) and the lines of `main` that act on its code.

Conventions of the embedding.

* `double` is exact rational arithmetic (`ℚ`); rounding is not modelled.
* `int` is `Int`.  Wrap-around is not modelled: every index expression of the
  source (`nP-1`, `nP-2`, `nP - maxI`, `t + maxI`) stays far from the 32-bit
  limits for the sizes a file can describe.
* A C array is a total map from indices to values.  A read outside the
  allocated range returns whatever the map holds there; that an index is in
  range is stated separately, on the references an expression records.
* A Concert expression (`IloExpr`) is a term `Expr`.  A number that the source
  reads from an array of the instance is kept together with the place it was
  read from (`Expr.read`), so that both its value and its index are visible.
* `for (int t = lo; t < hi; t++)` runs over `loop lo hi`; an accumulation
  `sum += e` inside such a loop is a left fold.
-/

namespace Mimpls

/-! ## Data model -/

/-- The record `INSTANCE` of both source files (`dcum` is declared there but
never allocated or used, so it is left out). -/
structure INSTANCE where
  d : Int → Int → ℚ
  c : Int → Int → ℚ
  f : Int → Int → ℚ
  h : Int → Int → ℚ
  a : Int → Int → ℚ
  m : Int → Int → ℚ
  max_prod : Int → Int → ℚ
  cap : Int → ℚ
  nI : Int
  nP : Int

/-- Default hop value, `HOP_def` of options.cpp (what `maxI` holds when no
`-i` option is given). -/
def HOP_def : Int := 6

/-- The values of the loop variable in `for (int t = lo; t < hi; t++)`. -/
def loop (lo hi : Int) : List Int :=
  (List.range (hi - lo).toNat).map (fun (i : Nat) => lo + (i : Int))

/-- The decision variables created in `solve_MIP`: `y_ilo[j][t]` (setup),
`x_ilo[j][t]` (production), `s_ilo[j][t]` (inventory), `sI[j]` (initial
inventory). -/
inductive Var where
  | y_ilo (j t : Int)
  | x_ilo (j t : Int)
  | s_ilo (j t : Int)
  | sI (j : Int)
  deriving DecidableEq, Repr

/-- A place of the instance that the model builder reads. -/
inductive Ref where
  | d (j t : Int)
  | c (j t : Int)
  | f (j t : Int)
  | h (j t : Int)
  | a (j t : Int)
  | m (j t : Int)
  | max_prod (j t : Int)
  | cap (t : Int)
  deriving DecidableEq, Repr

/-- Concert expressions, as far as `define_ilo_model` builds them. -/
inductive Expr where
  | num (q : ℚ)
  | read (r : Ref) (v : ℚ)
  | var (v : Var)
  | add (e1 e2 : Expr)
  | sub (e1 e2 : Expr)
  | mul (e1 e2 : Expr)
  deriving DecidableEq, Repr

/-- Comparison of a posted constraint. -/
inductive Rel where
  | le
  | eq
  deriving DecidableEq, Repr

/-- A constraint `lhs rel rhs` handed to `model.add`. -/
structure Constr where
  lhs : Expr
  rel : Rel
  rhs : Expr
  deriving DecidableEq, Repr

/-- Sense of the objective. -/
inductive Sense where
  | minimize
  | maximize
  deriving DecidableEq, Repr

/-- What `define_ilo_model` has added to the `IloModel`: the constraints in
the order of the `model.add` calls, and the objective. -/
structure Model where
  constrs : List Constr
  sense : Sense
  obj : Expr
  deriving Repr

/-- Values for the decision variables. -/
abbrev Assignment := Var → ℚ

/-- Value of an expression under an assignment. -/
def Expr.eval (A : Assignment) : Expr → ℚ
  | .num q => q
  | .read _ v => v
  | .var v => A v
  | .add e1 e2 => e1.eval A + e2.eval A
  | .sub e1 e2 => e1.eval A - e2.eval A
  | .mul e1 e2 => e1.eval A * e2.eval A

/-- The instance places an expression was built from. -/
def Expr.reads : Expr → List Ref
  | .num _ => []
  | .read r _ => [r]
  | .var _ => []
  | .add e1 e2 => e1.reads ++ e2.reads
  | .sub e1 e2 => e1.reads ++ e2.reads
  | .mul e1 e2 => e1.reads ++ e2.reads

/-- The decision variables an expression mentions. -/
def Expr.vars : Expr → List Var
  | .num _ => []
  | .read _ _ => []
  | .var v => [v]
  | .add e1 e2 => e1.vars ++ e2.vars
  | .sub e1 e2 => e1.vars ++ e2.vars
  | .mul e1 e2 => e1.vars ++ e2.vars

/-- A constraint holds under an assignment. -/
def Constr.holds (A : Assignment) (k : Constr) : Prop :=
  match k.rel with
  | .le => k.lhs.eval A ≤ k.rhs.eval A
  | .eq => k.lhs.eval A = k.rhs.eval A

instance (A : Assignment) (k : Constr) : Decidable (k.holds A) := by
  unfold Constr.holds
  cases k.rel <;> infer_instance

/-- Instance places read by a constraint. -/
def Constr.reads (k : Constr) : List Ref := k.lhs.reads ++ k.rhs.reads

/-- Decision variables mentioned by a constraint. -/
def Constr.vars (k : Constr) : List Var := k.lhs.vars ++ k.rhs.vars

/-- The period index of a reference into the demand array `inp.d`. -/
def Ref.demandPeriod : Ref → Option Int
  | .d _ t => some t
  | _ => none

/-- The period index of an inventory variable `s_ilo[j][t]`. -/
def Var.inventoryPeriod : Var → Option Int
  | .s_ilo _ t => some t
  | _ => none

/-! ## `solve_MIP`: the declared variables -/

/-- One declared variable: lower bound, upper bound (`none` is `IloInfinity`)
and whether it is `ILOINT`. -/
structure VarDecl where
  v : Var
  lb : ℚ
  ub : Option ℚ
  isInt : Bool
  deriving DecidableEq, Repr

/-- A value is admissible for a declared variable. -/
def VarDecl.admits (vd : VarDecl) (q : ℚ) : Prop :=
  vd.lb ≤ q
    ∧ (match vd.ub with
        | none => True
        | some u => q ≤ u)
    ∧ (vd.isInt = true → q.den = 1)

instance (vd : VarDecl) (q : ℚ) : Decidable (vd.admits q) := by
  unfold VarDecl.admits
  cases vd.ub <;> infer_instance

/-- The variables of `solve_MIP`: `sI` with `nI` entries in `[0, ∞)`, and per
item `j` the arrays `y_ilo[j]` (`nP` integers in `[0,1]`), `x_ilo[j]` and
`s_ilo[j]` (`nP` reals in `[0, ∞)` each). -/
def solve_MIP_vars (inp : INSTANCE) : List VarDecl :=
  (loop 0 inp.nI).map (fun j => VarDecl.mk (Var.sI j) 0 none false)
  ++ (loop 0 inp.nI).flatMap (fun j =>
        (loop 0 inp.nP).map (fun t => VarDecl.mk (Var.y_ilo j t) 0 (some 1) true)
        ++ (loop 0 inp.nP).map (fun t => VarDecl.mk (Var.x_ilo j t) 0 none false)
        ++ (loop 0 inp.nP).map (fun t => VarDecl.mk (Var.s_ilo j t) 0 none false))

/-- The assignment respects the bounds and types declared in `solve_MIP`. -/
def withinBounds (inp : INSTANCE) (A : Assignment) : Prop :=
  ∀ vd ∈ solve_MIP_vars inp, vd.admits (A vd.v)

instance (inp : INSTANCE) (A : Assignment) : Decidable (withinBounds inp A) := by
  unfold withinBounds
  infer_instance

/-! ## `define_ilo_model` -/

/-- Capacity constraint of period `t` (clsp.cpp 55-63): `sum` starts empty and
receives `a[j][t]*x[j][t] + m[j][t]*y[j][t]` for `j = 0 .. nI-1`. -/
def capacityConstr (inp : INSTANCE) (t : Int) : Constr :=
  { lhs := (loop 0 inp.nI).foldl
      (fun sum j => Expr.add sum
        (Expr.add (Expr.mul (Expr.read (Ref.a j t) (inp.a j t)) (Expr.var (Var.x_ilo j t)))
                  (Expr.mul (Expr.read (Ref.m j t) (inp.m j t)) (Expr.var (Var.y_ilo j t)))))
      (Expr.num 0)
    rel := Rel.le
    rhs := Expr.read (Ref.cap t) (inp.cap t) }

/-- Capacity constraints, one per period. -/
def capacityConstrs (inp : INSTANCE) : List Constr :=
  (loop 0 inp.nP).map (capacityConstr inp)

/-- Demand constraint of the first period (clsp.cpp 69). -/
def demandFirst (inp : INSTANCE) (j : Int) : Constr :=
  { lhs := Expr.sub (Expr.sub (Expr.add (Expr.var (Var.x_ilo j 0)) (Expr.var (Var.sI j)))
                              (Expr.read (Ref.d j 0) (inp.d j 0)))
                    (Expr.var (Var.s_ilo j 0))
    rel := Rel.eq
    rhs := Expr.num 0 }

/-- Demand constraint of a middle period (clsp.cpp 73). -/
def demandMid (inp : INSTANCE) (j t : Int) : Constr :=
  { lhs := Expr.sub (Expr.sub (Expr.add (Expr.var (Var.x_ilo j t)) (Expr.var (Var.s_ilo j (t - 1))))
                              (Expr.read (Ref.d j t) (inp.d j t)))
                    (Expr.var (Var.s_ilo j t))
    rel := Rel.eq
    rhs := Expr.num 0 }

/-- Demand constraint of the last period (clsp.cpp 76). -/
def demandLast (inp : INSTANCE) (j : Int) : Constr :=
  { lhs := Expr.sub (Expr.add (Expr.var (Var.x_ilo j (inp.nP - 1))) (Expr.var (Var.s_ilo j (inp.nP - 2))))
                    (Expr.read (Ref.d j (inp.nP - 1)) (inp.d j (inp.nP - 1)))
    rel := Rel.eq
    rhs := Expr.num 0 }

/-- The demand constraints posted for item `j` (clsp.cpp 68-76). -/
def demandConstrsOf (inp : INSTANCE) (j : Int) : List Constr :=
  [demandFirst inp j] ++ (loop 1 (inp.nP - 1)).map (demandMid inp j) ++ [demandLast inp j]

/-- Demand constraints of all items. -/
def demandConstrs (inp : INSTANCE) : List Constr :=
  (loop 0 inp.nI).flatMap (demandConstrsOf inp)

/-- The `x--y` constraint of `(j,t)` (clsp.cpp 82). -/
def linkConstr (inp : INSTANCE) (j t : Int) : Constr :=
  { lhs := Expr.var (Var.x_ilo j t)
    rel := Rel.le
    rhs := Expr.mul (Expr.read (Ref.max_prod j t) (inp.max_prod j t)) (Expr.var (Var.y_ilo j t)) }

/-- All `x--y` constraints. -/
def linkConstrs (inp : INSTANCE) : List Constr :=
  (loop 0 inp.nI).flatMap (fun j => (loop 0 inp.nP).map (linkConstr inp j))

/-- The expression `sum` of the hop constraint of `(j,t)` (clsp.cpp 91-93):
`d[j][k]` for `k = t+1 .. t+maxI`. -/
def hopSum (inp : INSTANCE) (maxI j t : Int) : Expr :=
  (loop (t + 1) (t + maxI + 1)).foldl
    (fun sum k => Expr.add sum (Expr.read (Ref.d j k) (inp.d j k)))
    (Expr.num 0)

/-- The hop constraint of `(j,t)` (clsp.cpp 96): `s[j][t] - sum <= 0`. -/
def hopConstr (inp : INSTANCE) (maxI j t : Int) : Constr :=
  { lhs := Expr.sub (Expr.var (Var.s_ilo j t)) (hopSum inp maxI j t)
    rel := Rel.le
    rhs := Expr.num 0 }

/-- The periods for which a hop constraint is posted: `t = 0 .. nP - maxI`. -/
def hopPeriods (inp : INSTANCE) (maxI : Int) : List Int :=
  loop 0 (inp.nP - maxI + 1)

/-- The hop constraints posted for item `j`. -/
def hopConstrsOf (inp : INSTANCE) (maxI j : Int) : List Constr :=
  (hopPeriods inp maxI).map (hopConstr inp maxI j)

/-- All hop constraints (clsp.cpp 88-99). -/
def hopConstrs (inp : INSTANCE) (maxI : Int) : List Constr :=
  (loop 0 inp.nI).flatMap (hopConstrsOf inp maxI)

/-- The objective `totCost` (clsp.cpp 102-109): per item `sI[j]*10000`, then
per period `f*y + c*x + h*s`. -/
def totCost (inp : INSTANCE) : Expr :=
  (loop 0 inp.nI).foldl
    (fun tot j =>
      (loop 0 inp.nP).foldl
        (fun tot t => Expr.add tot
          (Expr.add
            (Expr.add (Expr.mul (Expr.read (Ref.f j t) (inp.f j t)) (Expr.var (Var.y_ilo j t)))
                      (Expr.mul (Expr.read (Ref.c j t) (inp.c j t)) (Expr.var (Var.x_ilo j t))))
            (Expr.mul (Expr.read (Ref.h j t) (inp.h j t)) (Expr.var (Var.s_ilo j t)))))
        (Expr.add tot (Expr.mul (Expr.var (Var.sI j)) (Expr.num 10000))))
    (Expr.num 0)

/-- The model built by `define_ilo_model` for the instance `inp` and the hop
value `maxI`. -/
def define_ilo_model (inp : INSTANCE) (maxI : Int) : Model :=
  { constrs := capacityConstrs inp ++ demandConstrs inp ++ linkConstrs inp ++ hopConstrs inp maxI
    sense := Sense.minimize
    obj := totCost inp }

/-- All constraints of the model hold. -/
def Model.holds (M : Model) (A : Assignment) : Prop :=
  ∀ k ∈ M.constrs, k.holds A

instance (M : Model) (A : Assignment) : Decidable (M.holds A) := by
  unfold Model.holds
  infer_instance

/-- Feasible for the MIP of `solve_MIP`: within the declared bounds and
satisfying every posted constraint. -/
def feasible (inp : INSTANCE) (maxI : Int) (A : Assignment) : Prop :=
  withinBounds inp A ∧ (define_ilo_model inp maxI).holds A

instance (inp : INSTANCE) (maxI : Int) (A : Assignment) : Decidable (feasible inp maxI A) := by
  unfold feasible
  infer_instance

/-! ## `read_problem_data` -/

/-- Assignment `arr[t] = v`. -/
def set1 (arr : Int → ℚ) (t : Int) (v : ℚ) : Int → ℚ :=
  fun t' => if t' = t then v else arr t'

/-- Assignment `arr[i][t] = v`. -/
def set2 (arr : Int → Int → ℚ) (i t : Int) (v : ℚ) : Int → Int → ℚ :=
  fun i' t' => if i' = i ∧ t' = t then v else arr i' t'

/-- Extraction `fmimpls >> v` into a `double`.  The file is its sequence of
numeric tokens.  On an exhausted stream the extraction fails and leaves the
variable as it was. -/
def readDouble (old : ℚ) : List ℚ → ℚ × List ℚ
  | [] => (old, [])
  | q :: rest => (q, rest)

/-- Extraction `fmimpls >> v` into an `int`.  The three header values of the
format are integers; for another token the model takes its integer part and
goes on with the next token. -/
def readInt (old : Int) : List ℚ → Int × List ℚ
  | [] => (old, [])
  | q :: rest => (q.num.tdiv q.den, rest)

/-- The locals of `read_problem_data` that are declared without a value. -/
structure Locals where
  temp : Int
  a1 : ℚ
  h1 : ℚ
  m1 : ℚ
  f1 : ℚ

/-- State threaded through the reading loops: the record being filled, the
rest of the stream, and the four locals. -/
structure ReadState where
  inp : INSTANCE
  stream : List ℚ
  a1 : ℚ
  h1 : ℚ
  m1 : ℚ
  f1 : ℚ

/-- Body of the inner loop of mimpls.cpp 209-217 for item `i`, period `t`. -/
def itemCell (i : Int) (st : ReadState) (t : Int) : ReadState :=
  { st with inp := { st.inp with
      a := set2 st.inp.a i t 1
      h := set2 st.inp.h i t st.h1
      m := set2 st.inp.m i t st.m1
      f := set2 st.inp.f i t st.f1
      c := set2 st.inp.c i t 0 } }

/-- One round of the loop of mimpls.cpp 205-218 for item `i`: read
`a1 h1 m1 f1`, then fill the rows of item `i`. -/
def itemStep (st : ReadState) (i : Int) : ReadState :=
  let ra := readDouble st.a1 st.stream
  let rh := readDouble st.h1 ra.2
  let rm := readDouble st.m1 rh.2
  let rf := readDouble st.f1 rm.2
  (loop 0 st.inp.nP).foldl (itemCell i)
    { st with stream := rf.2, a1 := ra.1, h1 := rh.1, m1 := rm.1, f1 := rf.1 }

/-- Body of the loop of mimpls.cpp 220-222: `fmimpls >> inp.d[i][t]`. -/
def demandCell (t : Int) (st : ReadState) (i : Int) : ReadState :=
  let r := readDouble (st.inp.d i t) st.stream
  { st with inp := { st.inp with d := set2 st.inp.d i t r.1 }, stream := r.2 }

/-- Body of the loop of mimpls.cpp 231-233. -/
def maxProdCell (t : Int) (inp : INSTANCE) (j : Int) : INSTANCE :=
  { inp with max_prod := set2 inp.max_prod j t ((inp.cap t - inp.m j t) / inp.a j t) }

/-- The loop of mimpls.cpp 231-233: maximum production per item and period. -/
def computeMaxProd (inp : INSTANCE) : INSTANCE :=
  (loop 0 inp.nP).foldl (fun inp t => (loop 0 inp.nI).foldl (maxProdCell t) inp) inp

/-- The loop of mimpls.cpp 184-185: `cap[t] = temp` for every period. -/
def fillCap (cap : Int → ℚ) (nP temp : Int) : Int → ℚ :=
  (loop 0 nP).foldl (fun cap t => set1 cap t (temp : ℚ)) cap

/-- The loop of mimpls.cpp 205-218 over the items. -/
def readItems (st : ReadState) : ReadState :=
  (loop 0 st.inp.nI).foldl itemStep st

/-- The loops of mimpls.cpp 220-222: demands, period by period. -/
def readDemand (st : ReadState) : ReadState :=
  (loop 0 st.inp.nP).foldl (fun st t => (loop 0 st.inp.nI).foldl (demandCell t) st) st

/-- The loader `read_problem_data`.  `inp` is the record before the call (its
maps stand for the content of the memory the arrays are allocated in), `loc`
the values the uninitialised locals happen to hold, `file` the tokens of the
instance file.  The result is `none` when an allocation `new double[n]` is
asked for a negative size, which throws; the function has no other way to
fail on a file it could open (memory is not bounded here). -/
def read_problem_data (inp : INSTANCE) (loc : Locals) (file : List ℚ) : Option INSTANCE :=
  let rI := readInt inp.nI file
  let rP := readInt inp.nP rI.2
  let rT := readInt loc.temp rP.2
  if rP.1 < 0 ∨ rI.1 < 0 then none
  else
    some (computeMaxProd (readDemand (readItems
      { inp := { inp with nI := rI.1, nP := rP.1, cap := fillCap inp.cap rP.1 rT.1 }
        stream := rT.2, a1 := loc.a1, h1 := loc.h1, m1 := loc.m1, f1 := loc.f1 })).inp)

/-- The record `inp` as the program holds it before loading: a global, hence
zero-initialised. -/
def inp0 : INSTANCE :=
  { d := fun _ _ => 0, c := fun _ _ => 0, f := fun _ _ => 0, h := fun _ _ => 0,
    a := fun _ _ => 0, m := fun _ _ => 0, max_prod := fun _ _ => 0, cap := fun _ => 0,
    nI := 0, nP := 0 }

/-- Some values for the uninitialised locals. -/
def loc0 : Locals := { temp := 0, a1 := 0, h1 := 0, m1 := 0, f1 := 0 }

/-- The instance file of the infeasibility scenario: 2 items, 3 periods,
capacity 5; per item production time 1, holding cost 2, setup time 5, setup cost
50; demand 10 for each item in each period. -/
def fileCap5 : List ℚ :=
  [2, 3, 5, 1, 2, 5, 50, 1, 2, 5, 50, 10, 10, 10, 10, 10, 10]

/-- The fields of the record that the item loop leaves alone, and the two
arrays it fills with constants. -/
structure ItemInv (nI nP : Int) (cap : Int → ℚ) (done : List Int) (st0 st : ReadState) : Prop where
  nI_eq : st.inp.nI = nI
  nP_eq : st.inp.nP = nP
  cap_eq : st.inp.cap = cap
  a_eq : ∀ i t, st.inp.a i t
    = if i ∈ done ∧ (0 ≤ t ∧ t < nP) then 1 else st0.inp.a i t
  c_eq : ∀ i t, st.inp.c i t
    = if i ∈ done ∧ (0 ≤ t ∧ t < nP) then 0 else st0.inp.c i t

/-- The instance file of the literal scenario: 2 items, 3 periods, capacity
100; per item production time 1, holding cost 2, setup time 5, setup cost 50;
demand 10 for each item in each period. -/
def fileCap100 : List ℚ :=
  [2, 3, 100, 1, 2, 5, 50, 1, 2, 5, 50, 10, 10, 10, 10, 10, 10]

/-- An instance file whose capacity (3) is below the setup time (5): 1 item,
2 periods, demands 4 and 6. -/
def fileCap3 : List ℚ := [1, 2, 3, 1, 2, 5, 50, 4, 6]

/-- The record after loading `fileCap5`. -/
def instCap5 : INSTANCE := (read_problem_data inp0 loc0 fileCap5).getD inp0

/-- The record after loading `fileCap100`. -/
def instCap100 : INSTANCE := (read_problem_data inp0 loc0 fileCap100).getD inp0

/-- The record after loading `fileCap3`. -/
def instCap3 : INSTANCE := (read_problem_data inp0 loc0 fileCap3).getD inp0

/-- A plan for `instCap5` that produces nothing and serves the whole demand
from initial inventory: `sI[j] = 30`, `s[j][0] = 20`, `s[j][1] = 10`. -/
def planFromStock : Assignment
  | Var.sI _ => 30
  | Var.s_ilo _ 0 => 20
  | Var.s_ilo _ 1 => 10
  | _ => 0

/-- A plan for `instCap100` that sets up and produces the demand (10) of each
item in each period and keeps no stock. -/
def planLotForLot : Assignment
  | Var.y_ilo _ _ => 1
  | Var.x_ilo _ _ => 10
  | _ => 0

/-- The plan `planLotForLot` with the inventory variable of item 0 in the last
period (index 2) set to 5. -/
def planSpare : Assignment
  | Var.y_ilo _ _ => 1
  | Var.x_ilo _ _ => 10
  | Var.s_ilo j t => if j = 0 ∧ t = 2 then 5 else 0
  | Var.sI _ => 0

/-! ## `print_results`: the verification figures -/

/-- The utilisation `totCap` that `print_results` recomputes for period `t`
(clsp.cpp 188-191); `A` holds what `cplex.getValue` returns. -/
def totCap (inp : INSTANCE) (A : Assignment) (t : Int) : ℚ :=
  (loop 0 inp.nI).foldl
    (fun totCap j =>
      if A (Var.y_ilo j t) > 0.1 then totCap + (inp.m j t + inp.a j t * A (Var.x_ilo j t))
      else totCap)
    0

/-- The cost `z` that `print_results` re-derives (clsp.cpp 196-204), printed
as `z verified`. -/
def z_verified (inp : INSTANCE) (A : Assignment) : ℚ :=
  (loop 0 inp.nI).foldl
    (fun z j =>
      (loop 0 inp.nP).foldl
        (fun z t =>
          let z1 := if A (Var.y_ilo j t) > 0.1 then z + inp.f j t else z
          if A (Var.s_ilo j t) > 0.1 then z1 + A (Var.s_ilo j t) * inp.h j t else z1)
        z)
    0

/-- The figures of the verification part of `print_results`. -/
structure Verification where
  capacity : List (Int × ℚ × ℚ)
  z : ℚ

/-- The verification part of `print_results` (clsp.cpp 185-205): per period
the line `t+1 :: totCap / cap[t]`, then `z verified`.  The tables printed
before it only format the solution. -/
def print_results (inp : INSTANCE) (A : Assignment) : Verification :=
  { capacity := (loop 0 inp.nP).map (fun t => (t + 1, totCap inp A t, inp.cap t))
    z := z_verified inp A }

/-! ## `parseOptions` and the start of `main` -/

/-- Default wall-clock time limit, `TIME_LIMIT_def` of options.cpp. -/
def TIME_LIMIT_def : Int := 180

/-- The globals that `parseOptions` writes; `_FILENAME` is `none` for a null
pointer. -/
structure Globals where
  _FILENAME : Option String
  time_limit : Int
  maxI : Int
  deriving DecidableEq, Repr

/-- The globals at program start (zero-initialised). -/
def globals0 : Globals := { _FILENAME := none, time_limit := 0, maxI := 0 }

/-- White space as `isspace` sees it in the C locale. -/
def isspace (c : Char) : Bool :=
  c.toNat = 32 || (9 ≤ c.toNat && c.toNat ≤ 13)

/-- The digits at the front of a string, accumulated in base 10. -/
def digitsVal (acc : Int) : List Char → Int
  | [] => acc
  | c :: cs => if c.isDigit then digitsVal (acc * 10 + ((c.toNat : Int) - 48)) cs else acc

/-- Conversion `atol`: white space, an optional sign, then digits up to the
first other character (0 when there is none).  A value outside the range of
`long` is not modelled. -/
def atol (s : String) : Int :=
  match s.toList.dropWhile isspace with
  | [] => 0
  | c :: cs =>
    if c = '-' then - digitsVal 0 cs
    else if c = '+' then digitsVal 0 cs
    else digitsVal 0 (c :: cs)

/-- Conversion of a `long` to `int` on assignment: reduction modulo `2^32` into
the signed range. -/
def toInt32 (n : Int) : Int := (n + 2 ^ 31) % 2 ^ 32 - 2 ^ 31

/-- The loop `while (++i < argc)` of `parseOptions`.  `i` is the index of the
head of `args` in `argv`, `skip` says that the `i++` of an option with a value
has still to pass over that value.  The result is the returned code and the
globals; `none` stands for `atol` applied to the null pointer `argv[argc]`,
which has no defined behaviour. -/
def parseLoop : Int → List String → Globals → Bool → Bool → Option (Int × Globals)
  | _, [], g, setFile, _ => some (if setFile then 0 else -1, g)
  | i, _ :: rest, g, setFile, true => parseLoop (i + 1) rest g setFile false
  | i, option :: rest, g, setFile, false =>
    match option.toList with
    | [] => some (i, g)
    | c :: cs =>
      if c ≠ '-' then some (i, g)
      else
        match cs with
        | [] => some (i + 1, g)
        | c1 :: _ =>
          if c1 = 'f' then parseLoop (i + 1) rest { g with _FILENAME := rest.head? } true true
          else if c1 = 't' then
            match rest.head? with
            | none => none
            | some v => parseLoop (i + 1) rest { g with time_limit := toInt32 (atol v) } setFile true
          else if c1 = 'i' then
            match rest.head? with
            | none => none
            | some v => parseLoop (i + 1) rest { g with maxI := toInt32 (atol v) } setFile true
          else if c1 = 'h' then some (-1, g)
          else parseLoop (i + 1) rest g setFile false

/-- The function `parseOptions` on the argument vector `argv` (`argv[0]` is the
program name, `argc` its length). -/
def parseOptions (argv : List String) (g : Globals) : Option (Int × Globals) :=
  let g1 : Globals := { g with time_limit := TIME_LIMIT_def, maxI := HOP_def }
  if argv.length = 1 then some (-1, g1)
  else parseLoop 1 argv.tail g1 false false

/-- How `main` goes on after `parseOptions`. -/
inductive Start where
  | exit (code : Int)
  | load (g : Globals)
  deriving DecidableEq, Repr

/-- The first lines of `main` (mimpls.cpp 146-155): a non-zero code of
`parseOptions` ends the program with `exit(1)`, otherwise the instance is
loaded from `_FILENAME`. -/
def main_start (argv : List String) (g : Globals) : Option Start :=
  match parseOptions argv g with
  | none => none
  | some (err, g1) => if err ≠ 0 then some (Start.exit 1) else some (Start.load g1)

/-- An instance file with a single period: 1 item, capacity 100, demand 10. -/
def fileOnePeriod : List ℚ := [1, 1, 100, 1, 2, 5, 50, 10]

/-- The record after loading `fileOnePeriod`. -/
def instOnePeriod : INSTANCE := (read_problem_data inp0 loc0 fileOnePeriod).getD inp0

/-- An argument that `parseOptions` takes for the option `-f`: it starts with
the two characters `-f`. -/
def isFileOption (s : String) : Bool :=
  match s.toList with
  | c :: c1 :: _ => c = '-' && c1 = 'f'
  | _ => false

/-- What the item loop has done after its first `k` rounds, started on the
stream `s0`: it has consumed four tokens per item, and the rows of the items
`0 .. k-1` hold the second, third and fourth token of their group wherever the
stream had them. -/
structure RowInv (s0 : List ℚ) (nP : Int) (k : Nat) (st : ReadState) : Prop where
  stream_eq : st.stream = s0.drop (4 * k)
  nP_eq : st.inp.nP = nP
  h_eq : ∀ j : Nat, j < k → ∀ t, (0 ≤ t ∧ t < nP) → ∀ v,
    s0[4 * j + 1]? = some v → st.inp.h j t = v
  m_eq : ∀ j : Nat, j < k → ∀ t, (0 ≤ t ∧ t < nP) → ∀ v,
    s0[4 * j + 2]? = some v → st.inp.m j t = v
  f_eq : ∀ j : Nat, j < k → ∀ t, (0 ≤ t ∧ t < nP) → ∀ v,
    s0[4 * j + 3]? = some v → st.inp.f j t = v

/-- An instance file without items and periods. -/
def fileNoItems : List ℚ := [0, 0, 5]

/-- An instance file with a negative holding cost (-2) and a negative demand
(-4): 1 item, 2 periods. -/
def fileNegative : List ℚ := [1, 2, 100, 1, -2, 5, 50, -4, 6]

/-- An instance file that ends after its header: it announces 2 items and 3
periods, hence 17 values, and holds 3. -/
def fileHeaderOnly : List ℚ := [2, 3, 100]

/-- The record after loading `fileNoItems`. -/
def instNoItems : INSTANCE := (read_problem_data inp0 loc0 fileNoItems).getD inp0

/-- The record after loading `fileNegative`. -/
def instNegative : INSTANCE := (read_problem_data inp0 loc0 fileNegative).getD inp0

/-- The record after loading `fileHeaderOnly`. -/
def instHeaderOnly : INSTANCE := (read_problem_data inp0 loc0 fileHeaderOnly).getD inp0

/-! ## `solve_CLSP` -/

/-- What the external solver hands back to `solve_CLSP`: `solved A` when
`cplex.solve()` returns true, with `A` the values of the solution found, and
`failed` when it returns false or any call on the solver throws. -/
inductive Cplex where
  | solved (A : Assignment)
  | failed

/-- The function `solve_CLSP` (clsp.cpp 115-137): the objective value of the
solution, or -100 from the `catch` block when the solver has failed. -/
def solve_CLSP (model : Model) (cplex : Cplex) : ℚ :=
  match cplex with
  | Cplex.solved A => model.obj.eval A
  | Cplex.failed => -100

/-! # Theorems -/

/-! ## Loops and accumulated sums -/

theorem mem_loop (lo hi t : Int) : t ∈ loop lo hi ↔ lo ≤ t ∧ t < hi := by
  unfold loop
  simp only [List.mem_map, List.mem_range]
  constructor
  · rintro ⟨i, hi', rfl⟩
    omega
  · rintro ⟨h1, h2⟩
    exact ⟨(t - lo).toNat, by omega, by omega⟩

theorem loop_eq_nil (lo hi : Int) (h : hi ≤ lo) : loop lo hi = [] := by
  unfold loop
  have : (hi - lo).toNat = 0 := by omega
  simp [this]

theorem loop_succ (lo hi : Int) (h : lo ≤ hi) : loop lo (hi + 1) = loop lo hi ++ [hi] := by
  unfold loop
  have : (hi + 1 - lo).toNat = (hi - lo).toNat + 1 := by omega
  rw [this, List.range_succ, List.map_append]
  simp only [List.map_cons, List.map_nil]
  congr 2
  omega

theorem loop_nodup (lo hi : Int) : (loop lo hi).Nodup := by
  unfold loop
  apply List.Nodup.map
  · intro a b hab
    simpa using hab
  · exact List.nodup_range _

theorem sum_loop (f : Int → ℚ) (lo hi : Int) :
    ((loop lo hi).map f).sum = ∑ t ∈ Finset.Ico lo hi, f t := by
  rcases le_total hi lo with h | h
  · rw [loop_eq_nil lo hi h, Finset.Ico_eq_empty (by omega)]
    simp
  · obtain ⟨n, rfl⟩ : ∃ n : ℕ, hi = lo + n := ⟨(hi - lo).toNat, by omega⟩
    clear h
    induction n with
    | zero => simp [loop_eq_nil]
    | succ n ih =>
      have e : lo + ((n + 1 : ℕ) : Int) = (lo + n) + 1 := by push_cast; ring
      rw [e, loop_succ lo (lo + n) (by omega), List.map_append, List.sum_append, ih]
      have hI : Finset.Ico lo (lo + n + 1) = insert (lo + (n : Int)) (Finset.Ico lo (lo + n)) := by
        ext t
        simp only [Finset.mem_Ico, Finset.mem_insert]
        omega
      rw [hI, Finset.sum_insert (by simp)]
      simp [add_comm]

theorem eval_foldl_add (A : Assignment) (g : Int → Expr) (l : List Int) (init : Expr) :
    (l.foldl (fun sum j => Expr.add sum (g j)) init).eval A
      = init.eval A + (l.map (fun j => (g j).eval A)).sum := by
  induction l generalizing init with
  | nil => simp
  | cons j l ih =>
    simp only [List.foldl_cons, List.map_cons, List.sum_cons]
    rw [ih]
    simp only [Expr.eval]
    ring

theorem sum_Ico_succ (f : Int → ℚ) (lo hi : Int) (h : lo ≤ hi) :
    ∑ t ∈ Finset.Ico lo (hi + 1), f t = ∑ t ∈ Finset.Ico lo hi, f t + f hi := by
  have hI : Finset.Ico lo (hi + 1) = insert hi (Finset.Ico lo hi) := by
    ext t
    simp only [Finset.mem_Ico, Finset.mem_insert]
    omega
  rw [hI, Finset.sum_insert (by simp)]
  ring

/-! ## Demand balance -/

theorem demandFirst_holds (inp : INSTANCE) (j : Int) (A : Assignment) :
    (demandFirst inp j).holds A
      ↔ A (Var.x_ilo j 0) + A (Var.sI j) - inp.d j 0 - A (Var.s_ilo j 0) = 0 := by
  simp [demandFirst, Constr.holds, Expr.eval]

theorem demandMid_holds (inp : INSTANCE) (j t : Int) (A : Assignment) :
    (demandMid inp j t).holds A
      ↔ A (Var.x_ilo j t) + A (Var.s_ilo j (t - 1)) - inp.d j t - A (Var.s_ilo j t) = 0 := by
  simp [demandMid, Constr.holds, Expr.eval]

theorem demandLast_holds (inp : INSTANCE) (j : Int) (A : Assignment) :
    (demandLast inp j).holds A
      ↔ A (Var.x_ilo j (inp.nP - 1)) + A (Var.s_ilo j (inp.nP - 2)) - inp.d j (inp.nP - 1) = 0 := by
  simp [demandLast, Constr.holds, Expr.eval]

theorem mem_demandConstrsOf (inp : INSTANCE) (j : Int) (k : Constr) :
    k ∈ demandConstrsOf inp j
      ↔ k = demandFirst inp j ∨ (∃ t, 1 ≤ t ∧ t < inp.nP - 1 ∧ k = demandMid inp j t)
          ∨ k = demandLast inp j := by
  unfold demandConstrsOf
  simp only [List.mem_append, List.mem_singleton, List.mem_map, mem_loop]
  constructor
  · rintro ((h | ⟨t, ⟨h1, h2⟩, rfl⟩) | h)
    · exact Or.inl h
    · exact Or.inr (Or.inl ⟨t, h1, h2, rfl⟩)
    · exact Or.inr (Or.inr h)
  · rintro (h | ⟨t, h1, h2, rfl⟩ | h)
    · exact Or.inl (Or.inl h)
    · exact Or.inl (Or.inr ⟨t, ⟨h1, h2⟩, rfl⟩)
    · exact Or.inr h

/-- Stock at the end of period `n`, for the periods before the last one: what
has come in up to `n` minus what has gone out. -/
theorem stock_eq (inp : INSTANCE) (j : Int) (A : Assignment)
    (hsat : ∀ k ∈ demandConstrsOf inp j, k.holds A) (n : ℕ) (hn : (n : Int) < inp.nP - 1) :
    A (Var.sI j) + ∑ t ∈ Finset.Ico (0 : Int) (n + 1), (A (Var.x_ilo j t) - inp.d j t)
      = A (Var.s_ilo j n) := by
  induction n with
  | zero =>
    have h0 := (demandFirst_holds inp j A).1
      (hsat _ ((mem_demandConstrsOf inp j _).2 (Or.inl rfl)))
    have e : Finset.Ico (0 : Int) ((0 : ℕ) + 1) = {0} := by
      ext t
      simp only [Finset.mem_Ico, Finset.mem_singleton]
      omega
    rw [e, Finset.sum_singleton]
    simp only [Nat.cast_zero]
    linarith
  | succ n ih =>
    have hm := (demandMid_holds inp j (n + 1) A).1
      (hsat _ ((mem_demandConstrsOf inp j _).2
        (Or.inr (Or.inl ⟨n + 1, by omega, by push_cast at hn; omega, rfl⟩))))
    have ih' := ih (by push_cast at hn; omega)
    have e : ((n + 1 : ℕ) : Int) + 1 = ((n : Int) + 1) + 1 := by push_cast; ring
    rw [e, sum_Ico_succ _ 0 ((n : Int) + 1) (by omega)]
    have e2 : (n : Int) + 1 - 1 = n := by ring
    rw [e2] at hm
    push_cast
    linarith

/-- C2. Demand-balance round trip: for an instance with at least two periods and
any item `j`, an assignment that satisfies all demand constraints posted for
`j` has initial inventory plus total production equal to total demand. -/
theorem demand_balance_round_trip (inp : INSTANCE) (j : Int) (A : Assignment)
    (hT : 2 ≤ inp.nP) (hsat : ∀ k ∈ demandConstrsOf inp j, k.holds A) :
    A (Var.sI j) + ∑ t ∈ Finset.Ico 0 inp.nP, A (Var.x_ilo j t)
      = ∑ t ∈ Finset.Ico 0 inp.nP, inp.d j t := by
  obtain ⟨n, hn⟩ : ∃ n : ℕ, inp.nP = n + 2 := ⟨(inp.nP - 2).toNat, by omega⟩
  have hs := stock_eq inp j A hsat n (by omega)
  have hl := (demandLast_holds inp j A).1
    (hsat _ ((mem_demandConstrsOf inp j _).2 (Or.inr (Or.inr rfl))))
  have e1 : inp.nP - 1 = (n : Int) + 1 := by omega
  have e2 : inp.nP - 2 = (n : Int) := by omega
  rw [e1, e2] at hl
  have key : ∑ t ∈ Finset.Ico (0 : Int) inp.nP, (A (Var.x_ilo j t) - inp.d j t)
      = ∑ t ∈ Finset.Ico (0 : Int) (n + 1), (A (Var.x_ilo j t) - inp.d j t)
        + (A (Var.x_ilo j (n + 1)) - inp.d j (n + 1)) := by
    have e3 : inp.nP = ((n : Int) + 1) + 1 := by omega
    rw [e3, sum_Ico_succ _ 0 ((n : Int) + 1) (by omega)]
  rw [Finset.sum_sub_distrib] at key
  linarith

/-! ## The loader -/

theorem foldl_maxProdCell (t : Int) (l : List Int) (inp : INSTANCE) :
    l.foldl (maxProdCell t) inp
      = { inp with max_prod := fun j' t' =>
            if j' ∈ l ∧ t' = t then (inp.cap t - inp.m j' t) / inp.a j' t
            else inp.max_prod j' t' } := by
  induction l generalizing inp with
  | nil => simp
  | cons j l ih =>
    rw [List.foldl_cons, ih]
    simp only [maxProdCell, set2, List.mem_cons]
    congr 1
    funext j' t'
    by_cases h1 : j' ∈ l ∧ t' = t
    · simp [h1]
    · by_cases h2 : j' = j ∧ t' = t
      · simp [h1, h2]
      · have h3 : ¬ ((j' = j ∨ j' ∈ l) ∧ t' = t) := by tauto
        simp [h1, h2, h3]

theorem foldl_maxProdRow (ts : List Int) (inp : INSTANCE) :
    ts.foldl (fun inp t => (loop 0 inp.nI).foldl (maxProdCell t) inp) inp
      = { inp with max_prod := fun j' t' =>
            if j' ∈ loop 0 inp.nI ∧ t' ∈ ts then (inp.cap t' - inp.m j' t') / inp.a j' t'
            else inp.max_prod j' t' } := by
  induction ts generalizing inp with
  | nil => simp
  | cons t ts ih =>
    rw [List.foldl_cons, ih, foldl_maxProdCell]
    simp only [List.mem_cons]
    congr 1
    funext j' t'
    by_cases h1 : j' ∈ loop 0 inp.nI
    · by_cases h2 : t' ∈ ts
      · simp [h1, h2]
      · by_cases h3 : t' = t
        · simp [h1, h3]
        · simp [h1, h2, h3]
    · simp [h1]

/-- What the last loop of the loader leaves: every field but `max_prod` is
untouched, and `max_prod[j][t]` is the quotient for every cell in range. -/
theorem computeMaxProd_eq (inp : INSTANCE) :
    computeMaxProd inp
      = { inp with max_prod := fun j t =>
            if (0 ≤ j ∧ j < inp.nI) ∧ (0 ≤ t ∧ t < inp.nP)
            then (inp.cap t - inp.m j t) / inp.a j t
            else inp.max_prod j t } := by
  unfold computeMaxProd
  rw [foldl_maxProdRow]
  simp only [mem_loop]

theorem foldl_itemCell (i : Int) (l : List Int) (st : ReadState) :
    l.foldl (itemCell i) st
      = { st with inp := { st.inp with
            a := fun i' t' => if i' = i ∧ t' ∈ l then 1 else st.inp.a i' t'
            h := fun i' t' => if i' = i ∧ t' ∈ l then st.h1 else st.inp.h i' t'
            m := fun i' t' => if i' = i ∧ t' ∈ l then st.m1 else st.inp.m i' t'
            f := fun i' t' => if i' = i ∧ t' ∈ l then st.f1 else st.inp.f i' t'
            c := fun i' t' => if i' = i ∧ t' ∈ l then 0 else st.inp.c i' t' } } := by
  induction l generalizing st with
  | nil => simp
  | cons t l ih =>
    rw [List.foldl_cons, ih]
    simp only [itemCell, set2, List.mem_cons]
    congr 2 <;>
    · funext i' t'
      by_cases h1 : i' = i
      · by_cases h2 : t' ∈ l
        · simp [h1, h2]
        · by_cases h3 : t' = t
          · simp [h1, h3]
          · simp [h1, h2, h3]
      · simp [h1]

theorem itemStep_inv (nI nP : Int) (cap : Int → ℚ) (done : List Int) (st0 st : ReadState)
    (i : Int) (h : ItemInv nI nP cap done st0 st) :
    ItemInv nI nP cap (done ++ [i]) st0 (itemStep st i) := by
  obtain ⟨h1, h2, h3, h4, h5⟩ := h
  unfold itemStep
  rw [foldl_itemCell]
  refine ⟨h1, h2, h3, ?_, ?_⟩
  · intro i' t'
    simp only [mem_loop, List.mem_append, List.mem_singleton, h2, h4]
    by_cases e1 : i' = i
    · by_cases e2 : 0 ≤ t' ∧ t' < nP
      · simp [e1, e2]
      · simp [e1, e2]
    · simp [e1]
  · intro i' t'
    simp only [mem_loop, List.mem_append, List.mem_singleton, h2, h5]
    by_cases e1 : i' = i
    · by_cases e2 : 0 ≤ t' ∧ t' < nP
      · simp [e1, e2]
      · simp [e1, e2]
    · simp [e1]

theorem foldl_itemStep_inv (nI nP : Int) (cap : Int → ℚ) (l done : List Int)
    (st0 st : ReadState) (h : ItemInv nI nP cap done st0 st) :
    ItemInv nI nP cap (done ++ l) st0 (l.foldl itemStep st) := by
  induction l generalizing done st with
  | nil => simpa using h
  | cons i l ih =>
    rw [List.foldl_cons]
    have := ih (done ++ [i]) (itemStep st i) (itemStep_inv nI nP cap done st0 st i h)
    simpa using this

theorem demandCell_inp (t : Int) (st : ReadState) (i : Int) :
    (demandCell t st i).inp = { st.inp with d := (demandCell t st i).inp.d } := by
  simp [demandCell]

theorem foldl_demandCell_inp (t : Int) (l : List Int) (st : ReadState) :
    (l.foldl (demandCell t) st).inp
      = { st.inp with d := (l.foldl (demandCell t) st).inp.d } := by
  induction l generalizing st with
  | nil => simp
  | cons i l ih =>
    rw [List.foldl_cons, ih]
    simp [demandCell]

theorem foldl_demandRow_inp (ts : List Int) (st : ReadState) :
    (ts.foldl (fun st t => (loop 0 st.inp.nI).foldl (demandCell t) st) st).inp
      = { st.inp with
          d := (ts.foldl (fun st t => (loop 0 st.inp.nI).foldl (demandCell t) st) st).inp.d } := by
  induction ts generalizing st with
  | nil => simp
  | cons t ts ih =>
    rw [List.foldl_cons, ih, foldl_demandCell_inp]

theorem readItems_inv (st : ReadState) :
    ItemInv st.inp.nI st.inp.nP st.inp.cap (loop 0 st.inp.nI) st (readItems st) := by
  have h0 : ItemInv st.inp.nI st.inp.nP st.inp.cap [] st st :=
    ⟨rfl, rfl, rfl, fun _ _ => by simp, fun _ _ => by simp⟩
  simpa [readItems] using
    foldl_itemStep_inv st.inp.nI st.inp.nP st.inp.cap (loop 0 st.inp.nI) [] st st h0

theorem readDemand_inp (st : ReadState) :
    (readDemand st).inp = { st.inp with d := (readDemand st).inp.d } := by
  unfold readDemand
  exact foldl_demandRow_inp _ st

/-- What a successful load leaves in the fields the later stages rely on: the
sizes are not negative, `a[j][t]` is 1 for every cell in range, and `max_prod`
is the quotient computed from the fields as loaded. -/
theorem read_problem_data_some (inp : INSTANCE) (loc : Locals) (file : List ℚ) (r : INSTANCE)
    (h : read_problem_data inp loc file = some r) :
    0 ≤ r.nI ∧ 0 ≤ r.nP
      ∧ (∀ j t, (0 ≤ j ∧ j < r.nI) → (0 ≤ t ∧ t < r.nP) → r.a j t = 1)
      ∧ (∀ j t, (0 ≤ j ∧ j < r.nI) → (0 ≤ t ∧ t < r.nP) →
            r.max_prod j t = (r.cap t - r.m j t) / r.a j t) := by
  unfold read_problem_data at h
  simp only at h
  split at h
  · exact absurd h (by simp)
  · rename_i hneg
    simp only [Option.some.injEq] at h
    generalize hst : ({ inp := { inp with nI := (readInt inp.nI file).1,
                                          nP := (readInt inp.nP (readInt inp.nI file).2).1,
                                          cap := fillCap inp.cap (readInt inp.nP (readInt inp.nI file).2).1
                                            (readInt loc.temp (readInt inp.nP (readInt inp.nI file).2).2).1 }
                        stream := (readInt loc.temp (readInt inp.nP (readInt inp.nI file).2).2).2
                        a1 := loc.a1, h1 := loc.h1, m1 := loc.m1, f1 := loc.f1 } : ReadState) = st0 at h
    have hI : st0.inp.nI = (readInt inp.nI file).1 := by rw [← hst]
    have hP : st0.inp.nP = (readInt inp.nP (readInt inp.nI file).2).1 := by rw [← hst]
    have hinv := readItems_inv st0
    have hd := readDemand_inp (readItems st0)
    rw [computeMaxProd_eq, hd] at h
    subst h
    simp only [hinv.nI_eq, hinv.nP_eq]
    refine ⟨by omega, by omega, ?_, ?_⟩
    · intro j t hj ht
      rw [hinv.a_eq]
      simp [mem_loop, hj, ht]
    · intro j t hj ht
      simp [hj, ht]

/-! ## Hop constraints -/

theorem reads_foldl_add (g : Int → Expr) (l : List Int) (init : Expr) :
    (l.foldl (fun sum j => Expr.add sum (g j)) init).reads
      = init.reads ++ l.flatMap (fun j => (g j).reads) := by
  induction l generalizing init with
  | nil => simp
  | cons j l ih =>
    simp only [List.foldl_cons, List.flatMap_cons]
    rw [ih]
    simp [Expr.reads]

theorem vars_foldl_add (g : Int → Expr) (l : List Int) (init : Expr) :
    (l.foldl (fun sum j => Expr.add sum (g j)) init).vars
      = init.vars ++ l.flatMap (fun j => (g j).vars) := by
  induction l generalizing init with
  | nil => simp
  | cons j l ih =>
    simp only [List.foldl_cons, List.flatMap_cons]
    rw [ih]
    simp [Expr.vars]

theorem hopSum_reads (inp : INSTANCE) (maxI j t : Int) :
    (hopSum inp maxI j t).reads = (loop (t + 1) (t + maxI + 1)).map (Ref.d j) := by
  unfold hopSum
  rw [reads_foldl_add]
  simp only [Expr.reads, List.nil_append]
  induction loop (t + 1) (t + maxI + 1) with
  | nil => rfl
  | cons k l ih => simp [List.flatMap_cons, ih]

theorem hopSum_vars (inp : INSTANCE) (maxI j t : Int) : (hopSum inp maxI j t).vars = [] := by
  unfold hopSum
  rw [vars_foldl_add]
  simp only [Expr.vars, List.nil_append]
  induction loop (t + 1) (t + maxI + 1) with
  | nil => rfl
  | cons k l ih => simp [List.flatMap_cons, ih]

theorem hopSum_eval (inp : INSTANCE) (maxI j t : Int) (A : Assignment) :
    (hopSum inp maxI j t).eval A = ∑ k ∈ Finset.Ioc t (t + maxI), inp.d j k := by
  unfold hopSum
  rw [eval_foldl_add]
  simp only [Expr.eval, zero_add]
  rw [sum_loop]
  congr 1
  ext k
  simp only [Finset.mem_Ico, Finset.mem_Ioc]
  omega

theorem hopConstr_reads (inp : INSTANCE) (maxI j t : Int) :
    (hopConstr inp maxI j t).reads = (loop (t + 1) (t + maxI + 1)).map (Ref.d j) := by
  simp [hopConstr, Constr.reads, Expr.reads, hopSum_reads]

theorem hopConstr_vars (inp : INSTANCE) (maxI j t : Int) :
    (hopConstr inp maxI j t).vars = [Var.s_ilo j t] := by
  simp [hopConstr, Constr.vars, Expr.vars, hopSum_vars]

theorem hopConstr_holds (inp : INSTANCE) (maxI j t : Int) (A : Assignment) :
    (hopConstr inp maxI j t).holds A
      ↔ A (Var.s_ilo j t) ≤ ∑ k ∈ Finset.Ioc t (t + maxI), inp.d j k := by
  simp [hopConstr, Constr.holds, Expr.eval, hopSum_eval]

theorem mem_hopConstrsOf (inp : INSTANCE) (maxI j : Int) (k : Constr) :
    k ∈ hopConstrsOf inp maxI j
      ↔ ∃ t, (0 ≤ t ∧ t ≤ inp.nP - maxI) ∧ k = hopConstr inp maxI j t := by
  unfold hopConstrsOf hopPeriods
  simp only [List.mem_map, mem_loop]
  constructor
  · rintro ⟨t, ⟨h1, h2⟩, rfl⟩
    exact ⟨t, ⟨h1, by omega⟩, rfl⟩
  · rintro ⟨t, ⟨h1, h2⟩, rfl⟩
    exact ⟨t, ⟨h1, by omega⟩, rfl⟩

theorem mem_hopConstrs (inp : INSTANCE) (maxI : Int) (k : Constr) :
    k ∈ hopConstrs inp maxI
      ↔ ∃ j, (0 ≤ j ∧ j < inp.nI) ∧ k ∈ hopConstrsOf inp maxI j := by
  unfold hopConstrs
  simp only [List.mem_flatMap, mem_loop]

/-- For every hop value between 1 and the number of periods, the hop constraint
of the last constrained period `nP - maxI` of an item is posted, and the sum it
is built from has read `d[j][nP]`, one place past the end of the row. -/
theorem hop_reads_past_horizon (inp : INSTANCE) (maxI j : Int)
    (hj : 0 ≤ j ∧ j < inp.nI) (h1 : 1 ≤ maxI) (h2 : maxI ≤ inp.nP) :
    hopConstr inp maxI j (inp.nP - maxI) ∈ (define_ilo_model inp maxI).constrs
      ∧ Ref.d j inp.nP ∈ (hopConstr inp maxI j (inp.nP - maxI)).reads := by
  constructor
  · simp only [define_ilo_model, List.mem_append]
    right
    exact (mem_hopConstrs inp maxI _).2
      ⟨j, hj, (mem_hopConstrsOf inp maxI j _).2 ⟨inp.nP - maxI, ⟨by omega, le_refl _⟩, rfl⟩⟩
  · rw [hopConstr_reads]
    exact List.mem_map.2 ⟨inp.nP, (mem_loop _ _ _).2 ⟨by omega, by omega⟩, rfl⟩

/-- With a hop value of at least 1, the inventory variable of a posted hop
constraint is in range, and the demand places it reads are `d[j][k]` with
`1 ≤ k ≤ nP`: the only place read outside the row is `d[j][nP]`. -/
theorem hop_index_range (inp : INSTANCE) (maxI : Int) (h1 : 1 ≤ maxI) (k : Constr)
    (hk : k ∈ hopConstrs inp maxI) :
    (∀ v ∈ k.vars, ∀ t, v.inventoryPeriod = some t → 0 ≤ t ∧ t < inp.nP)
    ∧ (∀ r ∈ k.reads, ∀ t, r.demandPeriod = some t → 1 ≤ t ∧ t ≤ inp.nP) := by
  obtain ⟨j, -, hk'⟩ := (mem_hopConstrs inp maxI k).1 hk
  obtain ⟨t0, ht0, rfl⟩ := (mem_hopConstrsOf inp maxI j k).1 hk'
  constructor
  · intro v hv t ht
    rw [hopConstr_vars, List.mem_singleton] at hv
    subst hv
    simp only [Var.inventoryPeriod, Option.some.injEq] at ht
    omega
  · intro r hr t ht
    rw [hopConstr_reads, List.mem_map] at hr
    obtain ⟨k', hk'', rfl⟩ := hr
    rw [mem_loop] at hk''
    simp only [Ref.demandPeriod, Option.some.injEq] at ht
    omega

theorem instCap100_loaded : read_problem_data inp0 loc0 fileCap100 = some instCap100 := rfl

theorem instCap5_loaded : read_problem_data inp0 loc0 fileCap5 = some instCap5 := rfl

theorem instCap3_loaded : read_problem_data inp0 loc0 fileCap3 = some instCap3 := rfl

/-- C1. On the two-item, three-period scenario file with the hop value equal to
the number of periods (3), the model posted by `define_ilo_model` contains a
constraint whose sum was built from a read of the demand array at a period
index outside `0 .. nP-1` (namely `d[0][3]`). -/
theorem hop_boundary_reads_outside_horizon :
    ∃ k ∈ (define_ilo_model instCap100 3).constrs, ∃ r ∈ k.reads, ∃ t,
      r.demandPeriod = some t ∧ ¬ (0 ≤ t ∧ t < instCap100.nP) := by
  have h := hop_reads_past_horizon instCap100 3 0 (by decide) (by decide) (by decide)
  exact ⟨_, h.1, _, h.2, instCap100.nP, rfl, by decide⟩

theorem capacityConstr_vars (inp : INSTANCE) (t : Int) :
    (capacityConstr inp t).vars = (loop 0 inp.nI).flatMap (fun j => [Var.x_ilo j t, Var.y_ilo j t]) := by
  simp only [capacityConstr, Constr.vars]
  rw [vars_foldl_add]
  simp [Expr.vars]

theorem mem_capacityConstrs (inp : INSTANCE) (k : Constr) :
    k ∈ capacityConstrs inp ↔ ∃ t, (0 ≤ t ∧ t < inp.nP) ∧ k = capacityConstr inp t := by
  unfold capacityConstrs
  simp only [List.mem_map, mem_loop]
  constructor
  · rintro ⟨t, ht, rfl⟩
    exact ⟨t, ht, rfl⟩
  · rintro ⟨t, ht, rfl⟩
    exact ⟨t, ht, rfl⟩

theorem mem_demandConstrs (inp : INSTANCE) (k : Constr) :
    k ∈ demandConstrs inp ↔ ∃ j, (0 ≤ j ∧ j < inp.nI) ∧ k ∈ demandConstrsOf inp j := by
  unfold demandConstrs
  simp only [List.mem_flatMap, mem_loop]

theorem mem_linkConstrs (inp : INSTANCE) (k : Constr) :
    k ∈ linkConstrs inp
      ↔ ∃ j t, (0 ≤ j ∧ j < inp.nI) ∧ (0 ≤ t ∧ t < inp.nP) ∧ k = linkConstr inp j t := by
  unfold linkConstrs
  simp only [List.mem_flatMap, List.mem_map, mem_loop]
  constructor
  · rintro ⟨j, hj, t, ht, rfl⟩
    exact ⟨j, t, hj, ht, rfl⟩
  · rintro ⟨j, t, hj, ht, rfl⟩
    exact ⟨j, hj, t, ht, rfl⟩

theorem mem_model (inp : INSTANCE) (maxI : Int) (k : Constr) :
    k ∈ (define_ilo_model inp maxI).constrs
      ↔ k ∈ capacityConstrs inp ∨ k ∈ demandConstrs inp ∨ k ∈ linkConstrs inp
          ∨ k ∈ hopConstrs inp maxI := by
  simp only [define_ilo_model, List.mem_append]
  tauto

/-- A constraint of the model that mentions nothing but one inventory variable
is a hop constraint. -/
theorem single_inventory_constr (inp : INSTANCE) (maxI j t : Int) (k : Constr)
    (hk : k ∈ (define_ilo_model inp maxI).constrs) (hv : k.vars = [Var.s_ilo j t]) :
    (0 ≤ j ∧ j < inp.nI) ∧ (0 ≤ t ∧ t ≤ inp.nP - maxI) ∧ k = hopConstr inp maxI j t := by
  rcases (mem_model inp maxI k).1 hk with h | h | h | h
  · obtain ⟨t', -, rfl⟩ := (mem_capacityConstrs inp k).1 h
    rw [capacityConstr_vars] at hv
    have hm : Var.s_ilo j t ∈ (loop 0 inp.nI).flatMap (fun j => [Var.x_ilo j t', Var.y_ilo j t']) := by
      rw [hv]
      exact List.mem_singleton.2 rfl
    simp [List.mem_flatMap] at hm
  · obtain ⟨j', -, hk'⟩ := (mem_demandConstrs inp k).1 h
    rcases (mem_demandConstrsOf inp j' k).1 hk' with rfl | ⟨t', -, -, rfl⟩ | rfl
    · simp [demandFirst, Constr.vars, Expr.vars] at hv
    · simp [demandMid, Constr.vars, Expr.vars] at hv
    · simp [demandLast, Constr.vars, Expr.vars] at hv
  · obtain ⟨j', t', -, -, rfl⟩ := (mem_linkConstrs inp k).1 h
    simp [linkConstr, Constr.vars, Expr.vars] at hv
  · obtain ⟨j', hj', hk'⟩ := (mem_hopConstrs inp maxI k).1 h
    obtain ⟨t', ht', rfl⟩ := (mem_hopConstrsOf inp maxI j' k).1 hk'
    rw [hopConstr_vars] at hv
    simp only [List.cons.injEq, Var.s_ilo.injEq, and_true] at hv
    obtain ⟨rfl, rfl⟩ := hv
    exact ⟨hj', ht', rfl⟩

/-- C5. The hop constraints of the model, for any instance, item `j` and hop
value `maxI`: the constraints that bound one inventory variable `s[j][t]` alone
are posted for exactly the periods `0 ≤ t ≤ nP - maxI` (of the items in range),
one per period; the one of `(j,t)` says `s[j][t] ≤ Σ d[j][k]` over
`k = t+1 .. t+maxI`; with `maxI = nP` only period 0 is constrained, and with
`maxI > nP` no hop constraint is posted. -/
theorem hop_constraints_exact (inp : INSTANCE) (maxI j : Int) :
    (∀ k t, (k ∈ (define_ilo_model inp maxI).constrs ∧ k.vars = [Var.s_ilo j t])
        ↔ ((0 ≤ j ∧ j < inp.nI) ∧ (0 ≤ t ∧ t ≤ inp.nP - maxI) ∧ k = hopConstr inp maxI j t))
    ∧ (∀ t A, (hopConstr inp maxI j t).holds A
        ↔ A (Var.s_ilo j t) ≤ ∑ k ∈ Finset.Ioc t (t + maxI), inp.d j k)
    ∧ (hopConstrsOf inp maxI j).map Constr.vars
        = (List.range (inp.nP - maxI + 1).toNat).map (fun (t : Nat) => [Var.s_ilo j t])
    ∧ (maxI = inp.nP → hopConstrsOf inp maxI j = [hopConstr inp maxI j 0])
    ∧ (inp.nP < maxI → hopConstrs inp maxI = []) := by
  refine ⟨?_, ?_, ?_, ?_, ?_⟩
  · intro k t
    constructor
    · rintro ⟨hk, hv⟩
      exact single_inventory_constr inp maxI j t k hk hv
    · rintro ⟨hj, ht, rfl⟩
      refine ⟨?_, hopConstr_vars inp maxI j t⟩
      rw [mem_model]
      right; right; right
      exact (mem_hopConstrs inp maxI _).2 ⟨j, hj, (mem_hopConstrsOf inp maxI j _).2 ⟨t, ht, rfl⟩⟩
  · intro t A
    exact hopConstr_holds inp maxI j t A
  · simp [hopConstrsOf, hopPeriods, loop, hopConstr_vars]
  · intro h
    subst h
    simp [hopConstrsOf, hopPeriods, loop, List.range_succ]
  · intro h
    unfold hopConstrs hopConstrsOf hopPeriods
    rw [loop_eq_nil 0 (inp.nP - maxI + 1) (by omega)]
    simp

/-! ## Capacity, setup linking, objective -/

theorem eval_foldl_step (A : Assignment) (step : Expr → Int → Expr) (w : Int → ℚ)
    (hstep : ∀ e j, (step e j).eval A = e.eval A + w j) (l : List Int) (init : Expr) :
    (l.foldl step init).eval A = init.eval A + (l.map w).sum := by
  induction l generalizing init with
  | nil => simp
  | cons j l ih =>
    simp only [List.foldl_cons, List.map_cons, List.sum_cons]
    rw [ih, hstep]
    ring

theorem capacityConstr_holds (inp : INSTANCE) (t : Int) (A : Assignment) :
    (capacityConstr inp t).holds A
      ↔ ∑ j ∈ Finset.Ico 0 inp.nI,
          (inp.a j t * A (Var.x_ilo j t) + inp.m j t * A (Var.y_ilo j t)) ≤ inp.cap t := by
  simp only [capacityConstr, Constr.holds]
  rw [eval_foldl_add, sum_loop]
  simp [Expr.eval]

theorem linkConstr_holds (inp : INSTANCE) (j t : Int) (A : Assignment) :
    (linkConstr inp j t).holds A ↔ A (Var.x_ilo j t) ≤ inp.max_prod j t * A (Var.y_ilo j t) := by
  simp [linkConstr, Constr.holds, Expr.eval]

theorem totCost_eval (inp : INSTANCE) (A : Assignment) :
    (totCost inp).eval A
      = ∑ j ∈ Finset.Ico 0 inp.nI,
          (10000 * A (Var.sI j)
            + ∑ t ∈ Finset.Ico 0 inp.nP,
                (inp.f j t * A (Var.y_ilo j t) + inp.c j t * A (Var.x_ilo j t)
                  + inp.h j t * A (Var.s_ilo j t))) := by
  unfold totCost
  rw [eval_foldl_step A _ (fun j => 10000 * A (Var.sI j)
        + ∑ t ∈ Finset.Ico 0 inp.nP,
            (inp.f j t * A (Var.y_ilo j t) + inp.c j t * A (Var.x_ilo j t)
              + inp.h j t * A (Var.s_ilo j t)))]
  · rw [sum_loop]
    simp [Expr.eval]
  · intro e j
    rw [eval_foldl_add, sum_loop]
    simp only [Expr.eval]
    ring

/-- C6. For every instance and period `t` in range, the capacity constraint
posted by `define_ilo_model` says `Σ_j (a[j][t]*x[j][t] + m[j][t]*y[j][t]) ≤
cap[t]`; hence an assignment with every `y[j][t]` in `{0,1}` that satisfies it
has `Σ_j (m[j][t]*[y[j][t]=1] + a[j][t]*x[j][t]) ≤ cap[t]`. -/
theorem capacity_constraint (inp : INSTANCE) (maxI t : Int) (A : Assignment)
    (ht : 0 ≤ t ∧ t < inp.nP) :
    capacityConstr inp t ∈ (define_ilo_model inp maxI).constrs
    ∧ ((capacityConstr inp t).holds A
        ↔ ∑ j ∈ Finset.Ico 0 inp.nI,
            (inp.a j t * A (Var.x_ilo j t) + inp.m j t * A (Var.y_ilo j t)) ≤ inp.cap t)
    ∧ ((∀ j, 0 ≤ j ∧ j < inp.nI → A (Var.y_ilo j t) = 0 ∨ A (Var.y_ilo j t) = 1) →
        (capacityConstr inp t).holds A →
        ∑ j ∈ Finset.Ico 0 inp.nI,
            (inp.m j t * (if A (Var.y_ilo j t) = 1 then 1 else 0) + inp.a j t * A (Var.x_ilo j t))
          ≤ inp.cap t) := by
  refine ⟨?_, capacityConstr_holds inp t A, ?_⟩
  · rw [mem_model]
    exact Or.inl ((mem_capacityConstrs inp _).2 ⟨t, ht, rfl⟩)
  · intro hy hc
    rw [capacityConstr_holds] at hc
    refine le_trans (le_of_eq ?_) hc
    apply Finset.sum_congr rfl
    intro j hj
    rw [Finset.mem_Ico] at hj
    rcases hy j hj with h0 | h1
    · simp [h0]
    · simp [h1, add_comm]

/-- C7. For every instance and every `(j,t)` in range, the setup-linking
constraint posted by `define_ilo_model` says `x[j][t] ≤ max_prod[j][t]*y[j][t]`;
hence with `y[j][t]` in `{0,1}` and `x[j][t] ≥ 0`, an assignment that satisfies
it and produces (`x[j][t] > 0`) has `y[j][t] = 1`. -/
theorem setup_linking (inp : INSTANCE) (maxI j t : Int) (A : Assignment)
    (hj : 0 ≤ j ∧ j < inp.nI) (ht : 0 ≤ t ∧ t < inp.nP) :
    linkConstr inp j t ∈ (define_ilo_model inp maxI).constrs
    ∧ ((linkConstr inp j t).holds A ↔ A (Var.x_ilo j t) ≤ inp.max_prod j t * A (Var.y_ilo j t))
    ∧ ((A (Var.y_ilo j t) = 0 ∨ A (Var.y_ilo j t) = 1) → 0 ≤ A (Var.x_ilo j t) →
        (linkConstr inp j t).holds A → 0 < A (Var.x_ilo j t) → A (Var.y_ilo j t) = 1) := by
  refine ⟨?_, linkConstr_holds inp j t A, ?_⟩
  · rw [mem_model]
    exact Or.inr (Or.inr (Or.inl ((mem_linkConstrs inp _).2 ⟨j, t, hj, ht, rfl⟩)))
  · intro hy _ hl hpos
    rw [linkConstr_holds] at hl
    rcases hy with h0 | h1
    · rw [h0] at hl
      linarith
    · exact h1

/-- C8. For every `(j,t)` in range with `max_prod[j][t] ≤ 0`, the formulation
goes through like for any other cell (the builder has no failing path and posts
the same setup-linking constraint), and an assignment with `y[j][t]` in `{0,1}`
and `x[j][t] ≥ 0` that satisfies this constraint has `x[j][t] = 0`. -/
theorem nonpositive_max_prod_forces_zero (inp : INSTANCE) (maxI j t : Int) (A : Assignment)
    (hj : 0 ≤ j ∧ j < inp.nI) (ht : 0 ≤ t ∧ t < inp.nP) (hM : inp.max_prod j t ≤ 0) :
    linkConstr inp j t ∈ (define_ilo_model inp maxI).constrs
    ∧ ((A (Var.y_ilo j t) = 0 ∨ A (Var.y_ilo j t) = 1) → 0 ≤ A (Var.x_ilo j t) →
        (linkConstr inp j t).holds A → A (Var.x_ilo j t) = 0) := by
  refine ⟨?_, ?_⟩
  · rw [mem_model]
    exact Or.inr (Or.inr (Or.inl ((mem_linkConstrs inp _).2 ⟨j, t, hj, ht, rfl⟩)))
  · intro hy hx hl
    rw [linkConstr_holds] at hl
    rcases hy with h0 | h1
    · rw [h0] at hl
      linarith
    · rw [h1] at hl
      linarith

/-- C10. For every instance and assignment, the objective posted by
`define_ilo_model` is a minimisation of an expression whose value is
`Σ_j [ 10000*sI[j] + Σ_t (f[j][t]*y[j][t] + c[j][t]*x[j][t] + h[j][t]*s[j][t]) ]`,
with `j` over the items and `t` over the periods `0 .. nP-1`. -/
theorem objective_value (inp : INSTANCE) (maxI : Int) (A : Assignment) :
    (define_ilo_model inp maxI).sense = Sense.minimize
    ∧ (define_ilo_model inp maxI).obj.eval A
      = ∑ j ∈ Finset.Ico 0 inp.nI,
          (10000 * A (Var.sI j)
            + ∑ t ∈ Finset.Ico 0 inp.nP,
                (inp.f j t * A (Var.y_ilo j t) + inp.c j t * A (Var.x_ilo j t)
                  + inp.h j t * A (Var.s_ilo j t))) :=
  ⟨rfl, totCost_eval inp A⟩

/-! ## Declared variables -/

theorem zero_or_one_of_den (q : ℚ) (h0 : 0 ≤ q) (h1 : q ≤ 1) (hd : q.den = 1) :
    q = 0 ∨ q = 1 := by
  have hq : ((q.num : ℤ) : ℚ) = q := Rat.coe_int_num_of_den_eq_one hd
  rw [← hq] at h0 h1 ⊢
  have a0 : (0 : ℤ) ≤ q.num := by exact_mod_cast h0
  have a1 : q.num ≤ (1 : ℤ) := by exact_mod_cast h1
  have : q.num = 0 ∨ q.num = 1 := by omega
  rcases this with h | h
  · left; rw [h]; simp
  · right; rw [h]; simp

theorem mem_solve_MIP_vars (inp : INSTANCE) (vd : VarDecl) :
    vd ∈ solve_MIP_vars inp
      ↔ (∃ j, (0 ≤ j ∧ j < inp.nI) ∧ vd = VarDecl.mk (Var.sI j) 0 none false)
        ∨ ∃ j t, (0 ≤ j ∧ j < inp.nI) ∧ (0 ≤ t ∧ t < inp.nP)
            ∧ (vd = VarDecl.mk (Var.y_ilo j t) 0 (some 1) true
                ∨ vd = VarDecl.mk (Var.x_ilo j t) 0 none false
                ∨ vd = VarDecl.mk (Var.s_ilo j t) 0 none false) := by
  unfold solve_MIP_vars
  simp only [List.mem_append, List.mem_map, List.mem_flatMap, mem_loop]
  constructor
  · rintro (⟨j, hj, rfl⟩ | ⟨j, hj, (⟨t, ht, rfl⟩ | ⟨t, ht, rfl⟩) | ⟨t, ht, rfl⟩⟩)
    · exact Or.inl ⟨j, hj, rfl⟩
    · exact Or.inr ⟨j, t, hj, ht, Or.inl rfl⟩
    · exact Or.inr ⟨j, t, hj, ht, Or.inr (Or.inl rfl)⟩
    · exact Or.inr ⟨j, t, hj, ht, Or.inr (Or.inr rfl)⟩
  · rintro (⟨j, hj, rfl⟩ | ⟨j, t, hj, ht, rfl | rfl | rfl⟩)
    · exact Or.inl ⟨j, hj, rfl⟩
    · exact Or.inr ⟨j, hj, Or.inl (Or.inl ⟨t, ht, rfl⟩)⟩
    · exact Or.inr ⟨j, hj, Or.inl (Or.inr ⟨t, ht, rfl⟩)⟩
    · exact Or.inr ⟨j, hj, Or.inr ⟨t, ht, rfl⟩⟩

/-- The bounds of `solve_MIP` spelled out: initial inventory, production and
inventory are not negative, and every setup variable is 0 or 1. -/
theorem withinBounds_iff (inp : INSTANCE) (A : Assignment) :
    withinBounds inp A
      ↔ (∀ j, (0 ≤ j ∧ j < inp.nI) → 0 ≤ A (Var.sI j))
        ∧ ∀ j t, (0 ≤ j ∧ j < inp.nI) → (0 ≤ t ∧ t < inp.nP) →
            (A (Var.y_ilo j t) = 0 ∨ A (Var.y_ilo j t) = 1)
              ∧ 0 ≤ A (Var.x_ilo j t) ∧ 0 ≤ A (Var.s_ilo j t) := by
  unfold withinBounds
  constructor
  · intro h
    refine ⟨?_, ?_⟩
    · intro j hj
      have := h _ ((mem_solve_MIP_vars inp _).2 (Or.inl ⟨j, hj, rfl⟩))
      exact this.1
    · intro j t hj ht
      have hy := h _ ((mem_solve_MIP_vars inp _).2 (Or.inr ⟨j, t, hj, ht, Or.inl rfl⟩))
      have hx := h _ ((mem_solve_MIP_vars inp _).2 (Or.inr ⟨j, t, hj, ht, Or.inr (Or.inl rfl)⟩))
      have hs := h _ ((mem_solve_MIP_vars inp _).2 (Or.inr ⟨j, t, hj, ht, Or.inr (Or.inr rfl)⟩))
      exact ⟨zero_or_one_of_den _ hy.1 hy.2.1 (hy.2.2 rfl), hx.1, hs.1⟩
  · rintro ⟨hI, h⟩ vd hvd
    rcases (mem_solve_MIP_vars inp vd).1 hvd with ⟨j, hj, rfl⟩ | ⟨j, t, hj, ht, rfl | rfl | rfl⟩
    · exact ⟨hI j hj, trivial, by simp⟩
    · obtain ⟨hy, -, -⟩ := h j t hj ht
      refine ⟨?_, ?_, ?_⟩
      · rcases hy with e | e <;> simp [e]
      · show A (Var.y_ilo j t) ≤ 1
        rcases hy with e | e <;> simp [e]
      · intro _
        rcases hy with e | e <;> simp [e]
    · exact ⟨(h j t hj ht).2.1, trivial, by simp⟩
    · exact ⟨(h j t hj ht).2.2, trivial, by simp⟩

/-! ## The scenario instances -/

theorem two_three_cases (j t : Int) (hj : 0 ≤ j ∧ j < 2) (ht : 0 ≤ t ∧ t < 3) :
    (j = 0 ∨ j = 1) ∧ (t = 0 ∨ t = 1 ∨ t = 2) := by
  omega

theorem instCap5_fields :
    instCap5.nI = 2 ∧ instCap5.nP = 3
      ∧ ∀ j t, (0 ≤ j ∧ j < 2) → (0 ≤ t ∧ t < 3) →
          instCap5.d j t = 10 ∧ instCap5.a j t = 1 ∧ instCap5.m j t = 5
            ∧ instCap5.cap t = 5 ∧ instCap5.max_prod j t = 0 := by
  refine ⟨by decide, by decide, ?_⟩
  intro j t hj ht
  have hl := (read_problem_data_some inp0 loc0 fileCap5 instCap5 instCap5_loaded).2.2.2 j t
    (by rw [show instCap5.nI = 2 by decide]; exact hj)
    (by rw [show instCap5.nP = 3 by decide]; exact ht)
  obtain ⟨hj', ht'⟩ := two_three_cases j t hj ht
  have hd : instCap5.d j t = 10 ∧ instCap5.a j t = 1 ∧ instCap5.m j t = 5
      ∧ instCap5.cap t = 5 := by
    rcases hj' with rfl | rfl <;> rcases ht' with rfl | rfl | rfl <;> decide
  refine ⟨hd.1, hd.2.1, hd.2.2.1, hd.2.2.2, ?_⟩
  rw [hl, hd.2.1, hd.2.2.1, hd.2.2.2]
  norm_num

theorem instCap100_fields :
    instCap100.nI = 2 ∧ instCap100.nP = 3
      ∧ ∀ j t, (0 ≤ j ∧ j < 2) → (0 ≤ t ∧ t < 3) →
          instCap100.d j t = 10 ∧ instCap100.a j t = 1 ∧ instCap100.m j t = 5
            ∧ instCap100.cap t = 100 ∧ instCap100.max_prod j t = 95
            ∧ instCap100.f j t = 50 ∧ instCap100.c j t = 0 ∧ instCap100.h j t = 2 := by
  refine ⟨by decide, by decide, ?_⟩
  intro j t hj ht
  have hl := (read_problem_data_some inp0 loc0 fileCap100 instCap100 instCap100_loaded).2.2.2 j t
    (by rw [show instCap100.nI = 2 by decide]; exact hj)
    (by rw [show instCap100.nP = 3 by decide]; exact ht)
  obtain ⟨hj', ht'⟩ := two_three_cases j t hj ht
  have hd : instCap100.d j t = 10 ∧ instCap100.a j t = 1 ∧ instCap100.m j t = 5
      ∧ instCap100.cap t = 100 ∧ instCap100.f j t = 50 ∧ instCap100.c j t = 0
      ∧ instCap100.h j t = 2 := by
    rcases hj' with rfl | rfl <;> rcases ht' with rfl | rfl | rfl <;> decide
  refine ⟨hd.1, hd.2.1, hd.2.2.1, hd.2.2.2.1, ?_, hd.2.2.2.2⟩
  rw [hl, hd.2.1, hd.2.2.1, hd.2.2.2.1]
  norm_num

theorem instCap3_fields :
    instCap3.nI = 1 ∧ instCap3.nP = 2
      ∧ instCap3.cap 0 = 3 ∧ instCap3.m 0 0 = 5 ∧ instCap3.a 0 0 = 1
      ∧ instCap3.max_prod 0 0 = -2 := by
  have hl := (read_problem_data_some inp0 loc0 fileCap3 instCap3 instCap3_loaded).2.2.2 0 0
    (by decide) (by decide)
  have hd : instCap3.cap 0 = 3 ∧ instCap3.m 0 0 = 5 ∧ instCap3.a 0 0 = 1 := by decide
  refine ⟨by decide, by decide, hd.1, hd.2.1, hd.2.2, ?_⟩
  rw [hl, hd.1, hd.2.1, hd.2.2]
  norm_num

theorem sum_Ico_zero_two (f : Int → ℚ) : ∑ j ∈ Finset.Ico (0 : Int) 2, f j = f 0 + f 1 := by
  rw [show (2 : Int) = 1 + 1 by norm_num, sum_Ico_succ f 0 1 (by norm_num),
    show (1 : Int) = 0 + 1 by norm_num, sum_Ico_succ f 0 0 (le_refl _)]
  simp

theorem sum_Ico_zero_three (f : Int → ℚ) :
    ∑ j ∈ Finset.Ico (0 : Int) 3, f j = f 0 + f 1 + f 2 := by
  rw [show (3 : Int) = 2 + 1 by norm_num, sum_Ico_succ f 0 2 (by norm_num), sum_Ico_zero_two]

/-- The whole constraint set of the model, read as inequalities and equations
on the assignment. -/
theorem model_holds_iff (inp : INSTANCE) (maxI : Int) (A : Assignment) :
    (define_ilo_model inp maxI).holds A
      ↔ (∀ t, (0 ≤ t ∧ t < inp.nP) →
            ∑ j ∈ Finset.Ico 0 inp.nI,
              (inp.a j t * A (Var.x_ilo j t) + inp.m j t * A (Var.y_ilo j t)) ≤ inp.cap t)
        ∧ (∀ j, (0 ≤ j ∧ j < inp.nI) →
            A (Var.x_ilo j 0) + A (Var.sI j) - inp.d j 0 - A (Var.s_ilo j 0) = 0
            ∧ (∀ t, 1 ≤ t → t < inp.nP - 1 →
                A (Var.x_ilo j t) + A (Var.s_ilo j (t - 1)) - inp.d j t - A (Var.s_ilo j t) = 0)
            ∧ A (Var.x_ilo j (inp.nP - 1)) + A (Var.s_ilo j (inp.nP - 2)) - inp.d j (inp.nP - 1) = 0)
        ∧ (∀ j t, (0 ≤ j ∧ j < inp.nI) → (0 ≤ t ∧ t < inp.nP) →
            A (Var.x_ilo j t) ≤ inp.max_prod j t * A (Var.y_ilo j t))
        ∧ (∀ j t, (0 ≤ j ∧ j < inp.nI) → (0 ≤ t ∧ t ≤ inp.nP - maxI) →
            A (Var.s_ilo j t) ≤ ∑ k ∈ Finset.Ioc t (t + maxI), inp.d j k) := by
  unfold Model.holds
  constructor
  · intro h
    refine ⟨?_, ?_, ?_, ?_⟩
    · intro t ht
      exact (capacityConstr_holds inp t A).1
        (h _ ((mem_model inp maxI _).2 (Or.inl ((mem_capacityConstrs inp _).2 ⟨t, ht, rfl⟩))))
    · intro j hj
      have hd : ∀ k ∈ demandConstrsOf inp j, k.holds A := fun k hk =>
        h k ((mem_model inp maxI k).2 (Or.inr (Or.inl ((mem_demandConstrs inp k).2 ⟨j, hj, hk⟩))))
      refine ⟨?_, ?_, ?_⟩
      · exact (demandFirst_holds inp j A).1 (hd _ ((mem_demandConstrsOf inp j _).2 (Or.inl rfl)))
      · intro t h1 h2
        exact (demandMid_holds inp j t A).1
          (hd _ ((mem_demandConstrsOf inp j _).2 (Or.inr (Or.inl ⟨t, h1, h2, rfl⟩))))
      · exact (demandLast_holds inp j A).1
          (hd _ ((mem_demandConstrsOf inp j _).2 (Or.inr (Or.inr rfl))))
    · intro j t hj ht
      exact (linkConstr_holds inp j t A).1
        (h _ ((mem_model inp maxI _).2
          (Or.inr (Or.inr (Or.inl ((mem_linkConstrs inp _).2 ⟨j, t, hj, ht, rfl⟩))))))
    · intro j t hj ht
      exact (hopConstr_holds inp maxI j t A).1
        (h _ ((mem_model inp maxI _).2
          (Or.inr (Or.inr (Or.inr ((mem_hopConstrs inp maxI _).2
            ⟨j, hj, (mem_hopConstrsOf inp maxI j _).2 ⟨t, ht, rfl⟩⟩))))))
  · rintro ⟨hc, hd, hl, hh⟩ k hk
    rcases (mem_model inp maxI k).1 hk with h | h | h | h
    · obtain ⟨t, ht, rfl⟩ := (mem_capacityConstrs inp k).1 h
      exact (capacityConstr_holds inp t A).2 (hc t ht)
    · obtain ⟨j, hj, hk'⟩ := (mem_demandConstrs inp k).1 h
      rcases (mem_demandConstrsOf inp j k).1 hk' with rfl | ⟨t, h1, h2, rfl⟩ | rfl
      · exact (demandFirst_holds inp j A).2 (hd j hj).1
      · exact (demandMid_holds inp j t A).2 ((hd j hj).2.1 t h1 h2)
      · exact (demandLast_holds inp j A).2 (hd j hj).2.2
    · obtain ⟨j, t, hj, ht, rfl⟩ := (mem_linkConstrs inp k).1 h
      exact (linkConstr_holds inp j t A).2 (hl j t hj ht)
    · obtain ⟨j, hj, hk'⟩ := (mem_hopConstrs inp maxI k).1 h
      obtain ⟨t, ht, rfl⟩ := (mem_hopConstrsOf inp maxI j k).1 hk'
      exact (hopConstr_holds inp maxI j t A).2 (hh j t hj ht)

/-! ## The infeasibility scenario (capacity 5) -/

theorem planFromStock_feasible : feasible instCap5 HOP_def planFromStock := by
  obtain ⟨hI, hP, hf⟩ := instCap5_fields
  refine ⟨?_, ?_⟩
  · rw [withinBounds_iff, hI, hP]
    refine ⟨?_, ?_⟩
    · intro j _
      simp [planFromStock]
    · intro j t hj ht
      obtain ⟨-, ht'⟩ := two_three_cases j t hj ht
      rcases ht' with rfl | rfl | rfl <;> simp [planFromStock]
  · rw [model_holds_iff, hI, hP]
    refine ⟨?_, ?_, ?_, ?_⟩
    · intro t ht
      rw [sum_Ico_zero_two]
      obtain ⟨h0, h1⟩ := (⟨hf 0 t (by decide) ht, hf 1 t (by decide) ht⟩ : _ ∧ _)
      rw [h0.2.1, h0.2.2.1, h1.2.1, h1.2.2.1, h0.2.2.2.1]
      simp [planFromStock]
    · intro j hj
      have e0 := (hf j 0 hj (by decide)).1
      have e1 := (hf j 1 hj (by decide)).1
      have e2 := (hf j 2 hj (by decide)).1
      refine ⟨?_, ?_, ?_⟩
      · rw [e0]
        simp [planFromStock]
        norm_num
      · intro t h1 h2
        have ht : t = 1 := by omega
        subst ht
        rw [e1]
        simp [planFromStock]
        norm_num
      · rw [show (3 : Int) - 1 = 2 by norm_num, show (3 : Int) - 2 = 1 by norm_num, e2]
        simp [planFromStock]
    · intro j t hj ht
      rw [(hf j t hj ht).2.2.2.2]
      simp [planFromStock]
    · intro j t _ ht
      exfalso
      have : HOP_def = 6 := rfl
      omega

/-- With capacity 5 every feasible plan produces nothing and takes the whole
demand of 30 per item from initial inventory. -/
theorem cap5_forced (A : Assignment) (h : feasible instCap5 HOP_def A) :
    ∀ j, (0 ≤ j ∧ j < 2) →
      A (Var.sI j) = 30 ∧ ∀ t, (0 ≤ t ∧ t < 3) → A (Var.x_ilo j t) = 0 := by
  obtain ⟨hI, hP, hf⟩ := instCap5_fields
  obtain ⟨hb, hm⟩ := h
  rw [withinBounds_iff, hI, hP] at hb
  rw [model_holds_iff, hI, hP] at hm
  obtain ⟨-, hd, hl, -⟩ := hm
  intro j hj
  have hx : ∀ t, (0 ≤ t ∧ t < 3) → A (Var.x_ilo j t) = 0 := by
    intro t ht
    have h1 := hl j t hj ht
    rw [(hf j t hj ht).2.2.2.2] at h1
    have h2 := (hb.2 j t hj ht).2.1
    linarith
  refine ⟨?_, hx⟩
  obtain ⟨d0, d1, d2⟩ := hd j hj
  have d1' := d1 1 (by norm_num) (by norm_num)
  rw [show (3 : Int) - 1 = 2 by norm_num, show (3 : Int) - 2 = 1 by norm_num] at d2
  rw [show (1 : Int) - 1 = 0 by norm_num] at d1'
  rw [(hf j 0 hj (by decide)).1, hx 0 (by decide)] at d0
  rw [(hf j 1 hj (by decide)).1, hx 1 (by decide)] at d1'
  rw [(hf j 2 hj (by decide)).1, hx 2 (by decide)] at d2
  linarith

/-- C3 (counterexample). The model of the capacity-5 scenario is feasible: the
plan that produces nothing and holds 30 units of initial inventory per item is
within the declared bounds and satisfies every posted constraint. -/
theorem cap5_model_is_feasible :
    feasible instCap5 HOP_def planFromStock ∧ ∃ A, feasible instCap5 HOP_def A :=
  ⟨planFromStock_feasible, planFromStock, planFromStock_feasible⟩

/-- C3 (amended). In the capacity-5 scenario every assignment within the
declared bounds that satisfies all posted constraints has zero production in
every period and an initial inventory of 30 for both items; so no feasible
assignment has zero initial inventory. -/
theorem cap5_only_from_initial_inventory (A : Assignment)
    (h : feasible instCap5 HOP_def A) :
    (∀ j, (0 ≤ j ∧ j < instCap5.nI) →
      A (Var.sI j) = 30 ∧ ∀ t, (0 ≤ t ∧ t < instCap5.nP) → A (Var.x_ilo j t) = 0)
    ∧ ¬ (∀ j, (0 ≤ j ∧ j < instCap5.nI) → A (Var.sI j) = 0) := by
  have hI : instCap5.nI = 2 := instCap5_fields.1
  have hP : instCap5.nP = 3 := instCap5_fields.2.1
  rw [hI, hP]
  refine ⟨cap5_forced A h, ?_⟩
  intro h0
  have h1 := (cap5_forced A h 0 (by decide)).1
  have h2 := h0 0 (by decide)
  rw [h1] at h2
  norm_num at h2

/-- Witness for C3 (amended): the plan `planFromStock` is feasible for the
capacity-5 scenario, and has the forced values. -/
theorem cap5_only_from_initial_inventory_witness :
    feasible instCap5 HOP_def planFromStock
    ∧ (∀ j, (0 ≤ j ∧ j < instCap5.nI) →
        planFromStock (Var.sI j) = 30
          ∧ ∀ t, (0 ≤ t ∧ t < instCap5.nP) → planFromStock (Var.x_ilo j t) = 0)
    ∧ ¬ (∀ j, (0 ≤ j ∧ j < instCap5.nI) → planFromStock (Var.sI j) = 0) :=
  ⟨planFromStock_feasible,
    cap5_only_from_initial_inventory planFromStock planFromStock_feasible⟩

/-! ## The inventory variable of the last period -/

theorem sum_change_one (S : Finset Int) (F G : Int → ℚ) (i0 : Int) (hi : i0 ∈ S)
    (h : ∀ i ∈ S, i ≠ i0 → G i = F i) :
    ∑ i ∈ S, G i = ∑ i ∈ S, F i + (G i0 - F i0) := by
  rw [← Finset.add_sum_erase S G hi, ← Finset.add_sum_erase S F hi]
  have : ∑ i ∈ S.erase i0, G i = ∑ i ∈ S.erase i0, F i := by
    apply Finset.sum_congr rfl
    intro i hi'
    rw [Finset.mem_erase] at hi'
    exact h i hi'.2 hi'.1
  rw [this]
  ring

/-- Changing the value of one inventory variable `s[j][t]` in range changes the
objective by `h[j][t]` times the change. -/
theorem totCost_update_inventory (inp : INSTANCE) (A : Assignment) (j t : Int) (v : ℚ)
    (hj : 0 ≤ j ∧ j < inp.nI) (ht : 0 ≤ t ∧ t < inp.nP) :
    (totCost inp).eval (Function.update A (Var.s_ilo j t) v)
      = (totCost inp).eval A + inp.h j t * (v - A (Var.s_ilo j t)) := by
  have hy : ∀ j' t', Function.update A (Var.s_ilo j t) v (Var.y_ilo j' t') = A (Var.y_ilo j' t') :=
    fun j' t' => Function.update_noteq (by simp) _ _
  have hx : ∀ j' t', Function.update A (Var.s_ilo j t) v (Var.x_ilo j' t') = A (Var.x_ilo j' t') :=
    fun j' t' => Function.update_noteq (by simp) _ _
  have hI : ∀ j', Function.update A (Var.s_ilo j t) v (Var.sI j') = A (Var.sI j') :=
    fun j' => Function.update_noteq (by simp) _ _
  have hs : ∀ j' t', ¬ (j' = j ∧ t' = t) →
      Function.update A (Var.s_ilo j t) v (Var.s_ilo j' t') = A (Var.s_ilo j' t') :=
    fun j' t' hne => Function.update_noteq (by simpa using hne) _ _
  rw [totCost_eval, totCost_eval]
  simp only [hy, hx, hI]
  rw [sum_change_one (Finset.Ico 0 inp.nI)
    (fun j' => 10000 * A (Var.sI j') + ∑ t' ∈ Finset.Ico 0 inp.nP,
      (inp.f j' t' * A (Var.y_ilo j' t') + inp.c j' t' * A (Var.x_ilo j' t')
        + inp.h j' t' * A (Var.s_ilo j' t')))
    (fun j' => 10000 * A (Var.sI j') + ∑ t' ∈ Finset.Ico 0 inp.nP,
      (inp.f j' t' * A (Var.y_ilo j' t') + inp.c j' t' * A (Var.x_ilo j' t')
        + inp.h j' t' * Function.update A (Var.s_ilo j t) v (Var.s_ilo j' t')))
    j (Finset.mem_Ico.2 hj)]
  · congr 1
    rw [sum_change_one (Finset.Ico 0 inp.nP)
      (fun t' => inp.f j t' * A (Var.y_ilo j t') + inp.c j t' * A (Var.x_ilo j t')
        + inp.h j t' * A (Var.s_ilo j t'))
      (fun t' => inp.f j t' * A (Var.y_ilo j t') + inp.c j t' * A (Var.x_ilo j t')
        + inp.h j t' * Function.update A (Var.s_ilo j t) v (Var.s_ilo j t'))
      t (Finset.mem_Ico.2 ht)]
    · simp only [Function.update_same]
      ring
    · intro t' _ hne
      rw [hs j t' (by tauto)]
  · intro j' _ hne
    congr 1
    apply Finset.sum_congr rfl
    intro t' _
    rw [hs j' t' (by tauto)]

theorem last_inventory_not_in_balance (inp : INSTANCE) (j : Int) (hT : 2 ≤ inp.nP)
    (k : Constr) (hk : k ∈ capacityConstrs inp ++ demandConstrs inp ++ linkConstrs inp) :
    Var.s_ilo j (inp.nP - 1) ∉ k.vars := by
  simp only [List.mem_append] at hk
  rcases hk with (h | h) | h
  · obtain ⟨t', -, rfl⟩ := (mem_capacityConstrs inp k).1 h
    rw [capacityConstr_vars]
    simp [List.mem_flatMap]
  · obtain ⟨j', -, hk'⟩ := (mem_demandConstrs inp k).1 h
    rcases (mem_demandConstrsOf inp j' k).1 hk' with rfl | ⟨t', h1, h2, rfl⟩ | rfl
    · simp only [demandFirst, Constr.vars, Expr.vars, List.append_nil, List.cons_append,
        List.nil_append, List.mem_cons, List.mem_singleton, Var.s_ilo.injEq, reduceCtorEq,
        false_or, List.not_mem_nil, or_false]
      omega
    · simp only [demandMid, Constr.vars, Expr.vars, List.append_nil, List.cons_append,
        List.nil_append, List.mem_cons, List.mem_singleton, Var.s_ilo.injEq, reduceCtorEq,
        false_or, List.not_mem_nil, or_false]
      omega
    · simp only [demandLast, Constr.vars, Expr.vars, List.append_nil, List.cons_append,
        List.nil_append, List.mem_cons, List.mem_singleton, Var.s_ilo.injEq, reduceCtorEq,
        false_or, List.not_mem_nil, or_false]
      omega
  · obtain ⟨j', t', -, -, rfl⟩ := (mem_linkConstrs inp k).1 h
    simp [linkConstr, Constr.vars, Expr.vars]

/-- A plan on `instCap100` with setup 1 and production 10 everywhere, no initial
inventory, and no stock in the first two periods is feasible whatever its
inventory variables of the last period hold, as long as they are not negative. -/
theorem lotForLot_feasible (A : Assignment)
    (hy : ∀ j t, A (Var.y_ilo j t) = 1) (hx : ∀ j t, A (Var.x_ilo j t) = 10)
    (hI : ∀ j, A (Var.sI j) = 0) (hs0 : ∀ j, A (Var.s_ilo j 0) = 0) (hs1 : ∀ j, A (Var.s_ilo j 1) = 0)
    (hs2 : ∀ j, 0 ≤ A (Var.s_ilo j 2)) :
    feasible instCap100 HOP_def A := by
  obtain ⟨hnI, hnP, hf⟩ := instCap100_fields
  refine ⟨?_, ?_⟩
  · rw [withinBounds_iff, hnI, hnP]
    refine ⟨?_, ?_⟩
    · intro j _
      rw [hI]
    · intro j t hj ht
      obtain ⟨-, ht'⟩ := two_three_cases j t hj ht
      refine ⟨Or.inr (hy j t), by rw [hx]; norm_num, ?_⟩
      rcases ht' with rfl | rfl | rfl
      · rw [hs0]
      · rw [hs1]
      · exact hs2 j
  · rw [model_holds_iff, hnI, hnP]
    refine ⟨?_, ?_, ?_, ?_⟩
    · intro t ht
      rw [sum_Ico_zero_two]
      obtain ⟨h0, h1⟩ := (⟨hf 0 t (by decide) ht, hf 1 t (by decide) ht⟩ : _ ∧ _)
      rw [h0.2.1, h0.2.2.1, h1.2.1, h1.2.2.1, h0.2.2.2.1, hx, hx, hy, hy]
      norm_num
    · intro j hj
      refine ⟨?_, ?_, ?_⟩
      · rw [(hf j 0 hj (by decide)).1, hx, hI, hs0]
        norm_num
      · intro t h1 h2
        have ht : t = 1 := by omega
        subst ht
        rw [(hf j 1 hj (by decide)).1, hx, show (1 : Int) - 1 = 0 by norm_num, hs0, hs1]
        norm_num
      · rw [show (3 : Int) - 1 = 2 by norm_num, show (3 : Int) - 2 = 1 by norm_num,
          (hf j 2 hj (by decide)).1, hx, hs1]
        norm_num
    · intro j t hj ht
      rw [(hf j t hj ht).2.2.2.2.1, hx, hy]
      norm_num
    · intro j t _ ht
      exfalso
      have : HOP_def = 6 := rfl
      omega

theorem planSpare_feasible : feasible instCap100 HOP_def planSpare := by
  apply lotForLot_feasible
  · intro j t; rfl
  · intro j t; rfl
  · intro j; rfl
  · intro j; simp [planSpare]
  · intro j; simp [planSpare]
  · intro j
    by_cases h : j = 0 <;> simp [planSpare, h]

theorem instCap100_objective (A : Assignment)
    (hy : ∀ j t, A (Var.y_ilo j t) = 1) (hI : ∀ j, A (Var.sI j) = 0) :
    (define_ilo_model instCap100 HOP_def).obj.eval A
      = 300 + 2 * (A (Var.s_ilo 0 0) + A (Var.s_ilo 0 1) + A (Var.s_ilo 0 2)
                    + A (Var.s_ilo 1 0) + A (Var.s_ilo 1 1) + A (Var.s_ilo 1 2)) := by
  obtain ⟨hnI, hnP, hf⟩ := instCap100_fields
  have hobj : (define_ilo_model instCap100 HOP_def).obj = totCost instCap100 := rfl
  rw [hobj, totCost_eval, hnI, hnP, sum_Ico_zero_two, sum_Ico_zero_three, sum_Ico_zero_three]
  have e := fun j t hj ht => (hf j t hj ht).2.2.2.2.2
  rw [(e 0 0 (by decide) (by decide)).1, (e 0 0 (by decide) (by decide)).2.1,
    (e 0 0 (by decide) (by decide)).2.2,
    (e 0 1 (by decide) (by decide)).1, (e 0 1 (by decide) (by decide)).2.1,
    (e 0 1 (by decide) (by decide)).2.2,
    (e 0 2 (by decide) (by decide)).1, (e 0 2 (by decide) (by decide)).2.1,
    (e 0 2 (by decide) (by decide)).2.2,
    (e 1 0 (by decide) (by decide)).1, (e 1 0 (by decide) (by decide)).2.1,
    (e 1 0 (by decide) (by decide)).2.2,
    (e 1 1 (by decide) (by decide)).1, (e 1 1 (by decide) (by decide)).2.1,
    (e 1 1 (by decide) (by decide)).2.2,
    (e 1 2 (by decide) (by decide)).1, (e 1 2 (by decide) (by decide)).2.1,
    (e 1 2 (by decide) (by decide)).2.2]
  simp only [hy, hI]
  ring

/-- C4 (counterexample). On the capacity-100 scenario the plan `planSpare` is
within the declared bounds and satisfies every posted constraint although its
inventory variable of the last period of item 0 is 5, not 0; and that variable
is a term of the objective: the objective is 310 on this plan and 300 on the
plan that differs from it only by holding 0 there. -/
theorem final_inventory_free_and_priced :
    feasible instCap100 HOP_def planSpare
    ∧ planSpare (Var.s_ilo 0 (instCap100.nP - 1)) = 5
    ∧ (define_ilo_model instCap100 HOP_def).obj.eval planSpare = 310
    ∧ (define_ilo_model instCap100 HOP_def).obj.eval
        (Function.update planSpare (Var.s_ilo 0 (instCap100.nP - 1)) 0) = 300 := by
  have hP : instCap100.nP - 1 = 2 := by decide
  rw [hP]
  refine ⟨planSpare_feasible, rfl, ?_, ?_⟩
  · rw [instCap100_objective planSpare (fun _ _ => rfl) (fun _ => rfl)]
    simp [planSpare]
    norm_num
  · rw [instCap100_objective _ (fun _ _ => rfl) (fun _ => rfl)]
    simp [planSpare, Function.update]

theorem planLotForLot_feasible : feasible instCap100 HOP_def planLotForLot :=
  lotForLot_feasible planLotForLot (fun _ _ => rfl) (fun _ _ => rfl) (fun _ => rfl)
    (fun _ => rfl) (fun _ => rfl) (fun _ => le_of_eq rfl)

/-- C4 (amended). For every instance with at least two periods and every item
`j` in range: the inventory variable of the last period, `s[j][nP-1]`, is
declared in `solve_MIP` with bounds `[0, ∞)`; it occurs in no capacity, demand or
setup-linking constraint; every assignment that satisfies the posted
constraints has `x[j][nP-1] + s[j][nP-2] - d[j][nP-1] = 0` (the last balance
has no trailing inventory term, so nothing is left after the last period); and
the objective carries the term `h[j][nP-1]*s[j][nP-1]`: setting the variable to
`v` changes the objective by `h[j][nP-1]` times the change. -/
theorem last_period_inventory (inp : INSTANCE) (maxI j : Int) (A : Assignment) (v : ℚ)
    (hT : 2 ≤ inp.nP) (hj : 0 ≤ j ∧ j < inp.nI) :
    VarDecl.mk (Var.s_ilo j (inp.nP - 1)) 0 none false ∈ solve_MIP_vars inp
    ∧ (∀ k ∈ capacityConstrs inp ++ demandConstrs inp ++ linkConstrs inp,
        Var.s_ilo j (inp.nP - 1) ∉ k.vars)
    ∧ ((define_ilo_model inp maxI).holds A →
        A (Var.x_ilo j (inp.nP - 1)) + A (Var.s_ilo j (inp.nP - 2)) - inp.d j (inp.nP - 1) = 0)
    ∧ (define_ilo_model inp maxI).obj.eval (Function.update A (Var.s_ilo j (inp.nP - 1)) v)
        = (define_ilo_model inp maxI).obj.eval A
          + inp.h j (inp.nP - 1) * (v - A (Var.s_ilo j (inp.nP - 1))) := by
  refine ⟨?_, ?_, ?_, ?_⟩
  · exact (mem_solve_MIP_vars inp _).2
      (Or.inr ⟨j, inp.nP - 1, hj, ⟨by omega, by omega⟩, Or.inr (Or.inr rfl)⟩)
  · intro k hk
    exact last_inventory_not_in_balance inp j hT k hk
  · intro hm
    exact ((model_holds_iff inp maxI A).1 hm).2.1 j hj |>.2.2
  · exact totCost_update_inventory inp A j (inp.nP - 1) v hj ⟨by omega, by omega⟩

/-- Witness for C4 (amended), at the capacity-100 scenario, item 0 and the plan
`planSpare`. -/
theorem last_period_inventory_witness :
    (2 ≤ instCap100.nP ∧ (0 ≤ (0 : Int) ∧ (0 : Int) < instCap100.nI))
    ∧ (planSpare (Var.x_ilo 0 (instCap100.nP - 1)) + planSpare (Var.s_ilo 0 (instCap100.nP - 2))
        - instCap100.d 0 (instCap100.nP - 1) = 0)
    ∧ (define_ilo_model instCap100 HOP_def).obj.eval
          (Function.update planSpare (Var.s_ilo 0 (instCap100.nP - 1)) 0)
        = (define_ilo_model instCap100 HOP_def).obj.eval planSpare
          + instCap100.h 0 (instCap100.nP - 1)
            * (0 - planSpare (Var.s_ilo 0 (instCap100.nP - 1))) :=
  ⟨⟨by decide, by decide⟩,
    (last_period_inventory instCap100 HOP_def 0 planSpare 0 (by decide) (by decide)).2.2.1
      planSpare_feasible.2,
    (last_period_inventory instCap100 HOP_def 0 planSpare 0 (by decide) (by decide)).2.2.2⟩

/-! ## Witnesses on the scenario instances -/

/-- Witness for C2, at the capacity-100 scenario, item 0 and the plan
`planLotForLot`. -/
theorem demand_balance_round_trip_witness :
    2 ≤ instCap100.nP
    ∧ (∀ k ∈ demandConstrsOf instCap100 0, k.holds planLotForLot)
    ∧ planLotForLot (Var.sI 0) + ∑ t ∈ Finset.Ico 0 instCap100.nP, planLotForLot (Var.x_ilo 0 t)
        = ∑ t ∈ Finset.Ico 0 instCap100.nP, instCap100.d 0 t :=
  have hsat : ∀ k ∈ demandConstrsOf instCap100 0, k.holds planLotForLot := fun k hk =>
    planLotForLot_feasible.2 k ((mem_model instCap100 HOP_def k).2
      (Or.inr (Or.inl ((mem_demandConstrs instCap100 k).2 ⟨0, by decide, hk⟩))))
  ⟨by decide, hsat,
    demand_balance_round_trip instCap100 0 planLotForLot (by decide) hsat⟩

/-- Witness for C6, at the capacity-100 scenario, period 0 and the plan
`planLotForLot`. -/
theorem capacity_constraint_witness :
    (0 ≤ (0 : Int) ∧ (0 : Int) < instCap100.nP)
    ∧ capacityConstr instCap100 0 ∈ (define_ilo_model instCap100 HOP_def).constrs
    ∧ ∑ j ∈ Finset.Ico 0 instCap100.nI,
        (instCap100.m j 0 * (if planLotForLot (Var.y_ilo j 0) = 1 then 1 else 0)
          + instCap100.a j 0 * planLotForLot (Var.x_ilo j 0)) ≤ instCap100.cap 0 :=
  ⟨by decide,
    (capacity_constraint instCap100 HOP_def 0 planLotForLot (by decide)).1,
    (capacity_constraint instCap100 HOP_def 0 planLotForLot (by decide)).2.2
      (fun _ _ => Or.inr rfl)
      (planLotForLot_feasible.2 _
        (capacity_constraint instCap100 HOP_def 0 planLotForLot (by decide)).1)⟩

/-- Witness for C7, at the capacity-100 scenario, item 0, period 1. -/
theorem setup_linking_witness :
    ((0 ≤ (0 : Int) ∧ (0 : Int) < instCap100.nI) ∧ (0 ≤ (1 : Int) ∧ (1 : Int) < instCap100.nP))
    ∧ linkConstr instCap100 0 1 ∈ (define_ilo_model instCap100 HOP_def).constrs
    ∧ ((linkConstr instCap100 0 1).holds planLotForLot
        ↔ planLotForLot (Var.x_ilo 0 1) ≤ instCap100.max_prod 0 1 * planLotForLot (Var.y_ilo 0 1)) :=
  ⟨⟨by decide, by decide⟩,
    (setup_linking instCap100 HOP_def 0 1 planLotForLot (by decide) (by decide)).1,
    (setup_linking instCap100 HOP_def 0 1 planLotForLot (by decide) (by decide)).2.1⟩

/-- Witness for C8, at the instance loaded from `fileCap3`, where
`max_prod[0][0] = -2`. -/
theorem nonpositive_max_prod_forces_zero_witness :
    ((0 ≤ (0 : Int) ∧ (0 : Int) < instCap3.nI) ∧ (0 ≤ (0 : Int) ∧ (0 : Int) < instCap3.nP)
      ∧ instCap3.max_prod 0 0 ≤ 0)
    ∧ linkConstr instCap3 0 0 ∈ (define_ilo_model instCap3 HOP_def).constrs
    ∧ ((planFromStock (Var.y_ilo 0 0) = 0 ∨ planFromStock (Var.y_ilo 0 0) = 1) →
        0 ≤ planFromStock (Var.x_ilo 0 0) →
        (linkConstr instCap3 0 0).holds planFromStock → planFromStock (Var.x_ilo 0 0) = 0) :=
  have hM : instCap3.max_prod 0 0 ≤ 0 := by
    rw [instCap3_fields.2.2.2.2.2]
    norm_num
  ⟨⟨by decide, by decide, hM⟩,
    nonpositive_max_prod_forces_zero instCap3 HOP_def 0 0 planFromStock
      (by decide) (by decide) hM⟩

/-! ## The derived bound `max_prod` -/

/-- C9. For every instance that `read_problem_data` returns and every `(j,t)` in
range, `max_prod[j][t]` is exactly `(cap[t] - m[j][t]) / a[j][t]` over the
rationals, with no clamping: it is negative whenever `cap[t] < m[j][t]`. -/
theorem max_prod_exact (inp : INSTANCE) (loc : Locals) (file : List ℚ) (r : INSTANCE)
    (h : read_problem_data inp loc file = some r) (j t : Int)
    (hj : 0 ≤ j ∧ j < r.nI) (ht : 0 ≤ t ∧ t < r.nP) :
    r.max_prod j t = (r.cap t - r.m j t) / r.a j t
    ∧ (r.cap t < r.m j t → r.max_prod j t < 0) := by
  obtain ⟨-, -, ha, hm⟩ := read_problem_data_some inp loc file r h
  refine ⟨hm j t hj ht, ?_⟩
  intro hlt
  rw [hm j t hj ht, ha j t hj ht]
  simp only [div_one]
  linarith

/-- Witness for C9, at the instance loaded from `fileCap3`. -/
theorem max_prod_exact_witness :
    (read_problem_data inp0 loc0 fileCap3 = some instCap3
      ∧ (0 ≤ (0 : Int) ∧ (0 : Int) < instCap3.nI) ∧ (0 ≤ (0 : Int) ∧ (0 : Int) < instCap3.nP))
    ∧ instCap3.max_prod 0 0 = (instCap3.cap 0 - instCap3.m 0 0) / instCap3.a 0 0
    ∧ (instCap3.cap 0 < instCap3.m 0 0 → instCap3.max_prod 0 0 < 0) :=
  ⟨⟨rfl, by decide, by decide⟩,
    max_prod_exact inp0 loc0 fileCap3 instCap3 rfl 0 0 (by decide) (by decide)⟩

/-! ## Monotonicity of the hop bound -/

/-- C15. For every item `j`, period `t ≥ 0` and demand that is not negative on
the periods `0 .. nP-1`, the right-hand side of the hop constraint, the sum
`Σ d[j][k]` over `k` in `(t, t+h]` that `define_ilo_model` accumulates, does not
decrease with the hop value: for `h ≤ h'` with `t + h' ≤ nP - 1` the sum for `h`
is at most the sum for `h'`. -/
theorem hop_rhs_monotone (inp : INSTANCE) (j t h h' : Int) (A : Assignment)
    (hd : ∀ k, (0 ≤ k ∧ k < inp.nP) → 0 ≤ inp.d j k) (ht : 0 ≤ t)
    (hh : h ≤ h') (hT : t + h' ≤ inp.nP - 1) :
    (hopSum inp h j t).eval A = ∑ k ∈ Finset.Ioc t (t + h), inp.d j k
    ∧ (hopSum inp h j t).eval A ≤ (hopSum inp h' j t).eval A := by
  refine ⟨hopSum_eval inp h j t A, ?_⟩
  rw [hopSum_eval, hopSum_eval]
  apply Finset.sum_le_sum_of_subset_of_nonneg
  · intro k hk
    rw [Finset.mem_Ioc] at hk ⊢
    omega
  · intro k hk _
    rw [Finset.mem_Ioc] at hk
    exact hd k ⟨by omega, by omega⟩

/-- Witness for C15, at the capacity-100 scenario: item 0, period 0, hop values
1 and 2. -/
theorem hop_rhs_monotone_witness :
    ((∀ k, (0 ≤ k ∧ k < instCap100.nP) → 0 ≤ instCap100.d 0 k) ∧ (0 : Int) ≤ 0
      ∧ (1 : Int) ≤ 2 ∧ (0 : Int) + 2 ≤ instCap100.nP - 1)
    ∧ (hopSum instCap100 1 0 0).eval planLotForLot
        ≤ (hopSum instCap100 2 0 0).eval planLotForLot :=
  have hd : ∀ k, (0 ≤ k ∧ k < instCap100.nP) → 0 ≤ instCap100.d 0 k := by
    intro k hk
    rw [instCap100_fields.2.1] at hk
    rw [(instCap100_fields.2.2 0 k (by decide) hk).1]
    norm_num
  ⟨⟨hd, le_refl _, by decide, by decide⟩,
    (hop_rhs_monotone instCap100 0 0 1 2 planLotForLot hd (le_refl _) (by decide)
      (by decide)).2⟩

/-! ## The verifier of `print_results` -/

theorem foldl_step_sum (step : ℚ → Int → ℚ) (w : Int → ℚ)
    (hstep : ∀ acc j, step acc j = acc + w j) (l : List Int) (init : ℚ) :
    l.foldl step init = init + (l.map w).sum := by
  induction l generalizing init with
  | nil => simp
  | cons j l ih =>
    simp only [List.foldl_cons, List.map_cons, List.sum_cons]
    rw [ih, hstep]
    ring

theorem totCap_eq (inp : INSTANCE) (A : Assignment) (t : Int) :
    totCap inp A t
      = ∑ j ∈ Finset.Ico 0 inp.nI,
          (if A (Var.y_ilo j t) > 0.1 then 1 else 0)
            * (inp.m j t + inp.a j t * A (Var.x_ilo j t)) := by
  unfold totCap
  rw [foldl_step_sum _ (fun j => (if A (Var.y_ilo j t) > 0.1 then 1 else 0)
        * (inp.m j t + inp.a j t * A (Var.x_ilo j t)))]
  · rw [sum_loop, zero_add]
  · intro acc j
    split_ifs <;> simp

theorem z_verified_eq (inp : INSTANCE) (A : Assignment) :
    z_verified inp A
      = ∑ j ∈ Finset.Ico 0 inp.nI, ∑ t ∈ Finset.Ico 0 inp.nP,
          ((if A (Var.y_ilo j t) > 0.1 then 1 else 0) * inp.f j t
            + (if A (Var.s_ilo j t) > 0.1 then 1 else 0)
                * A (Var.s_ilo j t) * inp.h j t) := by
  unfold z_verified
  rw [foldl_step_sum _ (fun j => ∑ t ∈ Finset.Ico 0 inp.nP,
        ((if A (Var.y_ilo j t) > 0.1 then 1 else 0) * inp.f j t
          + (if A (Var.s_ilo j t) > 0.1 then 1 else 0)
              * A (Var.s_ilo j t) * inp.h j t))]
  · rw [sum_loop, zero_add]
  · intro acc j
    rw [foldl_step_sum _ (fun t =>
        ((if A (Var.y_ilo j t) > 0.1 then 1 else 0) * inp.f j t
          + (if A (Var.s_ilo j t) > 0.1 then 1 else 0)
              * A (Var.s_ilo j t) * inp.h j t)), sum_loop]
    intro acc' t
    simp only
    split_ifs <;> ring

/-- C16. For every instance, assignment and period `t`, the utilisation that
`print_results` recomputes is `Σ_j [y[j][t] > 0.1] * (m[j][t] + a[j][t]*x[j][t])`
over the items, and the line printed for a period `t` in range shows this value
against `cap[t]`. -/
theorem verifier_utilisation (inp : INSTANCE) (A : Assignment) (t : Int) :
    totCap inp A t
      = ∑ j ∈ Finset.Ico 0 inp.nI,
          (if A (Var.y_ilo j t) > 0.1 then 1 else 0)
            * (inp.m j t + inp.a j t * A (Var.x_ilo j t))
    ∧ ((0 ≤ t ∧ t < inp.nP) →
        (t + 1, ∑ j ∈ Finset.Ico 0 inp.nI,
            (if A (Var.y_ilo j t) > 0.1 then 1 else 0)
              * (inp.m j t + inp.a j t * A (Var.x_ilo j t)), inp.cap t)
          ∈ (print_results inp A).capacity) := by
  refine ⟨totCap_eq inp A t, ?_⟩
  intro ht
  rw [← totCap_eq]
  exact List.mem_map.2 ⟨t, (mem_loop 0 inp.nP t).2 ht, rfl⟩

/-- C17. For every instance and assignment, the cost that `print_results`
re-derives (`z verified`) is the sum over the items `j` and the periods
`t = 0 .. nP-1` of `[y[j][t] > 0.1]*f[j][t] + [s[j][t] > 0.1]*s[j][t]*h[j][t]`. -/
theorem verifier_cost (inp : INSTANCE) (A : Assignment) :
    (print_results inp A).z
      = ∑ j ∈ Finset.Ico 0 inp.nI, ∑ t ∈ Finset.Ico 0 inp.nP,
          ((if A (Var.y_ilo j t) > 0.1 then 1 else 0) * inp.f j t
            + (if A (Var.s_ilo j t) > 0.1 then 1 else 0)
                * A (Var.s_ilo j t) * inp.h j t) :=
  z_verified_eq inp A

/-- With `y` in `{0,1}`, `x ≥ 0` and the setup-linking constraint, an item
weighs the same in the verifier's utilisation and in the capacity constraint. -/
theorem utilisation_term (inp : INSTANCE) (A : Assignment) (j t : Int)
    (hy : A (Var.y_ilo j t) = 0 ∨ A (Var.y_ilo j t) = 1) (hx : 0 ≤ A (Var.x_ilo j t))
    (hl : (linkConstr inp j t).holds A) :
    (if A (Var.y_ilo j t) > 0.1 then 1 else 0) * (inp.m j t + inp.a j t * A (Var.x_ilo j t))
      = inp.a j t * A (Var.x_ilo j t) + inp.m j t * A (Var.y_ilo j t) := by
  rw [linkConstr_holds] at hl
  rcases hy with h0 | h1
  · rw [h0] at hl ⊢
    have hx0 : A (Var.x_ilo j t) = 0 := by linarith
    rw [hx0]
    norm_num
  · rw [h1]
    norm_num
    ring

/-- C19. For every instance, period `t` and assignment with `y[j][t]` in `{0,1}`
and `x[j][t] ≥ 0` that satisfies the setup-linking constraints of period `t`
(for the items in range), the utilisation recomputed by `print_results` equals
the left-hand side of the capacity constraint posted for `t`, which is
`Σ_j (a[j][t]*x[j][t] + m[j][t]*y[j][t])`; so for every feasible assignment and
every period in range the verifier's utilisation is at most `cap[t]`. -/
theorem verifier_matches_capacity (inp : INSTANCE) (t : Int) (A : Assignment)
    (hy : ∀ j, (0 ≤ j ∧ j < inp.nI) → A (Var.y_ilo j t) = 0 ∨ A (Var.y_ilo j t) = 1)
    (hx : ∀ j, (0 ≤ j ∧ j < inp.nI) → 0 ≤ A (Var.x_ilo j t))
    (hl : ∀ j, (0 ≤ j ∧ j < inp.nI) → (linkConstr inp j t).holds A) :
    totCap inp A t = (capacityConstr inp t).lhs.eval A
    ∧ (capacityConstr inp t).lhs.eval A
        = ∑ j ∈ Finset.Ico 0 inp.nI,
            (inp.a j t * A (Var.x_ilo j t) + inp.m j t * A (Var.y_ilo j t))
    ∧ (∀ maxI, feasible inp maxI A → (0 ≤ t ∧ t < inp.nP) → totCap inp A t ≤ inp.cap t) := by
  have hlhs : (capacityConstr inp t).lhs.eval A
      = ∑ j ∈ Finset.Ico 0 inp.nI,
          (inp.a j t * A (Var.x_ilo j t) + inp.m j t * A (Var.y_ilo j t)) := by
    simp only [capacityConstr]
    rw [eval_foldl_add, sum_loop]
    simp [Expr.eval]
  have htot : totCap inp A t = (capacityConstr inp t).lhs.eval A := by
    rw [hlhs, totCap_eq]
    apply Finset.sum_congr rfl
    intro j hj
    rw [Finset.mem_Ico] at hj
    exact utilisation_term inp A j t (hy j hj) (hx j hj) (hl j hj)
  refine ⟨htot, hlhs, ?_⟩
  intro maxI hf ht
  rw [htot, hlhs]
  exact ((model_holds_iff inp maxI A).1 hf.2).1 t ht

/-- Witness for C19, at the capacity-100 scenario, period 0 and the plan
`planLotForLot`. -/
theorem verifier_matches_capacity_witness :
    ((∀ j, (0 ≤ j ∧ j < instCap100.nI) →
        planLotForLot (Var.y_ilo j 0) = 0 ∨ planLotForLot (Var.y_ilo j 0) = 1)
      ∧ (∀ j, (0 ≤ j ∧ j < instCap100.nI) → 0 ≤ planLotForLot (Var.x_ilo j 0))
      ∧ (∀ j, (0 ≤ j ∧ j < instCap100.nI) → (linkConstr instCap100 j 0).holds planLotForLot))
    ∧ totCap instCap100 planLotForLot 0 = (capacityConstr instCap100 0).lhs.eval planLotForLot
    ∧ totCap instCap100 planLotForLot 0 ≤ instCap100.cap 0 :=
  have hy : ∀ j, (0 ≤ j ∧ j < instCap100.nI) →
      planLotForLot (Var.y_ilo j 0) = 0 ∨ planLotForLot (Var.y_ilo j 0) = 1 :=
    fun _ _ => Or.inr rfl
  have hx : ∀ j, (0 ≤ j ∧ j < instCap100.nI) → 0 ≤ planLotForLot (Var.x_ilo j 0) :=
    fun _ _ => by simp [planLotForLot]
  have hl : ∀ j, (0 ≤ j ∧ j < instCap100.nI) →
      (linkConstr instCap100 j 0).holds planLotForLot := fun j hj =>
    planLotForLot_feasible.2 _ ((mem_model instCap100 HOP_def _).2
      (Or.inr (Or.inr (Or.inl ((mem_linkConstrs instCap100 _).2
        ⟨j, 0, hj, by decide, rfl⟩)))))
  ⟨⟨hy, hx, hl⟩,
    (verifier_matches_capacity instCap100 0 planLotForLot hy hx hl).1,
    (verifier_matches_capacity instCap100 0 planLotForLot hy hx hl).2.2 HOP_def
      planLotForLot_feasible (by decide)⟩

/-- C20. For every instance whose unit production cost `c` is 0 on all cells in
range, and every assignment with `y` in `{0,1}`, `sI[j] = 0` for all items, and
every inventory value either 0 or greater than 0.1, the cost re-derived by
`print_results` (`z verified`) equals the value of the objective posted by
`define_ilo_model` on that assignment. -/
theorem verifier_cost_matches_objective (inp : INSTANCE) (maxI : Int) (A : Assignment)
    (hc : ∀ j t, (0 ≤ j ∧ j < inp.nI) → (0 ≤ t ∧ t < inp.nP) → inp.c j t = 0)
    (hy : ∀ j t, (0 ≤ j ∧ j < inp.nI) → (0 ≤ t ∧ t < inp.nP) →
      A (Var.y_ilo j t) = 0 ∨ A (Var.y_ilo j t) = 1)
    (hI : ∀ j, (0 ≤ j ∧ j < inp.nI) → A (Var.sI j) = 0)
    (hs : ∀ j t, (0 ≤ j ∧ j < inp.nI) → (0 ≤ t ∧ t < inp.nP) →
      A (Var.s_ilo j t) = 0 ∨ A (Var.s_ilo j t) > 0.1) :
    (print_results inp A).z = (define_ilo_model inp maxI).obj.eval A := by
  have hobj : (define_ilo_model inp maxI).obj = totCost inp := rfl
  rw [hobj, totCost_eval, verifier_cost]
  apply Finset.sum_congr rfl
  intro j hj
  rw [Finset.mem_Ico] at hj
  rw [hI j hj, mul_zero, zero_add]
  apply Finset.sum_congr rfl
  intro t ht
  rw [Finset.mem_Ico] at ht
  rw [hc j t hj ht, zero_mul, add_zero]
  have e1 : (if A (Var.y_ilo j t) > 0.1 then 1 else 0) * inp.f j t
      = inp.f j t * A (Var.y_ilo j t) := by
    rcases hy j t hj ht with h0 | h1
    · rw [h0]; norm_num
    · rw [h1]; norm_num
  have e2 : (if A (Var.s_ilo j t) > 0.1 then 1 else 0) * A (Var.s_ilo j t) * inp.h j t
      = inp.h j t * A (Var.s_ilo j t) := by
    rcases hs j t hj ht with h0 | h1
    · rw [h0]; norm_num
    · rw [if_pos h1]; ring
  rw [e1, e2]

/-- Witness for C20, at the capacity-100 scenario and the plan `planLotForLot`. -/
theorem verifier_cost_matches_objective_witness :
    ((∀ j t, (0 ≤ j ∧ j < instCap100.nI) → (0 ≤ t ∧ t < instCap100.nP) →
        instCap100.c j t = 0)
      ∧ (∀ j t, (0 ≤ j ∧ j < instCap100.nI) → (0 ≤ t ∧ t < instCap100.nP) →
        planLotForLot (Var.y_ilo j t) = 0 ∨ planLotForLot (Var.y_ilo j t) = 1)
      ∧ (∀ j, (0 ≤ j ∧ j < instCap100.nI) → planLotForLot (Var.sI j) = 0)
      ∧ (∀ j t, (0 ≤ j ∧ j < instCap100.nI) → (0 ≤ t ∧ t < instCap100.nP) →
        planLotForLot (Var.s_ilo j t) = 0 ∨ planLotForLot (Var.s_ilo j t) > 0.1))
    ∧ (print_results instCap100 planLotForLot).z
        = (define_ilo_model instCap100 HOP_def).obj.eval planLotForLot :=
  have hc : ∀ j t, (0 ≤ j ∧ j < instCap100.nI) → (0 ≤ t ∧ t < instCap100.nP) →
      instCap100.c j t = 0 := by
    intro j t hj ht
    rw [instCap100_fields.1] at hj
    rw [instCap100_fields.2.1] at ht
    exact (instCap100_fields.2.2 j t hj ht).2.2.2.2.2.2.1
  ⟨⟨hc, fun _ _ _ _ => Or.inr rfl, fun _ _ => rfl, fun _ _ _ _ => Or.inl rfl⟩,
    verifier_cost_matches_objective instCap100 HOP_def planLotForLot hc
      (fun _ _ _ _ => Or.inr rfl) (fun _ _ => rfl) (fun _ _ _ _ => Or.inl rfl)⟩

/-! ## The literal scenario (capacity 100) -/

/-- C11. On the capacity-100 scenario with the default hop value, the model is
satisfiable with zero initial inventory; and in every assignment within the
declared bounds that satisfies all posted constraints and has `sI[j] = 0` for
both items, each item produces 30 in total over the three periods and has
`y[j][t] = 1` wherever `x[j][t] > 0`. -/
theorem cap100_scenario :
    (∃ A, feasible instCap100 HOP_def A
        ∧ ∀ j, (0 ≤ j ∧ j < instCap100.nI) → A (Var.sI j) = 0)
    ∧ ∀ A, feasible instCap100 HOP_def A →
        (∀ j, (0 ≤ j ∧ j < instCap100.nI) → A (Var.sI j) = 0) →
        ∀ j, (0 ≤ j ∧ j < instCap100.nI) →
          ∑ t ∈ Finset.Ico 0 instCap100.nP, A (Var.x_ilo j t) = 30
          ∧ ∀ t, (0 ≤ t ∧ t < instCap100.nP) →
              0 < A (Var.x_ilo j t) → A (Var.y_ilo j t) = 1 := by
  obtain ⟨hnI, hnP, hf⟩ := instCap100_fields
  refine ⟨⟨planLotForLot, planLotForLot_feasible, fun _ _ => rfl⟩, ?_⟩
  intro A hfeas h0 j hj
  obtain ⟨hb, hm⟩ := hfeas
  rw [withinBounds_iff, hnI, hnP] at hb
  rw [model_holds_iff, hnI, hnP] at hm
  rw [hnI] at hj h0
  rw [hnP]
  obtain ⟨-, hd, hl, -⟩ := hm
  constructor
  · obtain ⟨d0, d1, d2⟩ := hd j hj
    have d1' := d1 1 (by norm_num) (by norm_num)
    rw [show (3 : Int) - 1 = 2 by norm_num, show (3 : Int) - 2 = 1 by norm_num] at d2
    rw [show (1 : Int) - 1 = 0 by norm_num] at d1'
    rw [(hf j 0 hj (by decide)).1, h0 j hj] at d0
    rw [(hf j 1 hj (by decide)).1] at d1'
    rw [(hf j 2 hj (by decide)).1] at d2
    rw [sum_Ico_zero_three]
    linarith
  · intro t ht hpos
    have h1 := hl j t hj ht
    rcases (hb.2 j t hj ht).1 with hy | hy
    · rw [hy] at h1
      linarith
    · exact hy

/-! ## Demand constraints per period -/

theorem loop_cons (lo hi : Int) (h : lo < hi) : loop lo hi = lo :: loop (lo + 1) hi := by
  unfold loop
  have e : (hi - lo).toNat = (hi - (lo + 1)).toNat + 1 := by omega
  rw [e, List.range_succ_eq_map, List.map_cons, List.map_map]
  simp only [Nat.cast_zero, add_zero, List.cons.injEq, true_and]
  apply List.map_congr_left
  intro i _
  simp only [Function.comp_apply, Nat.succ_eq_add_one, Nat.cast_add, Nat.cast_one]
  ring

/-- With at least two periods, the demand constraints posted for an item are
one per period, in the order of the periods, and every inventory variable they
mention has its period index in `0 .. nP-1`. -/
theorem demand_constraints_two_periods (inp : INSTANCE) (j : Int) (hT : 2 ≤ inp.nP) :
    (demandConstrsOf inp j).map Constr.reads = (loop 0 inp.nP).map (fun t => [Ref.d j t])
    ∧ ∀ k ∈ demandConstrsOf inp j, ∀ v ∈ k.vars, ∀ t,
        v.inventoryPeriod = some t → 0 ≤ t ∧ t < inp.nP := by
  constructor
  · rw [loop_cons 0 inp.nP (by omega)]
    have e : loop (0 + 1) inp.nP = loop 1 (inp.nP - 1) ++ [inp.nP - 1] := by
      have := loop_succ 1 (inp.nP - 1) (by omega)
      rw [show inp.nP - 1 + 1 = inp.nP by ring] at this
      rw [show (0 : Int) + 1 = 1 by norm_num]
      exact this
    rw [e]
    simp [demandConstrsOf, demandFirst, demandMid, demandLast, Constr.reads, Expr.reads]
  · intro k hk v hv t ht
    rcases (mem_demandConstrsOf inp j k).1 hk with rfl | ⟨t', h1, h2, rfl⟩ | rfl
    · simp only [demandFirst, Constr.vars, Expr.vars, List.append_nil, List.cons_append,
        List.nil_append, List.mem_cons, List.mem_singleton, List.not_mem_nil, or_false] at hv
      rcases hv with rfl | rfl | rfl <;> simp [Var.inventoryPeriod] at ht
      omega
    · simp only [demandMid, Constr.vars, Expr.vars, List.append_nil, List.cons_append,
        List.nil_append, List.mem_cons, List.mem_singleton, List.not_mem_nil, or_false] at hv
      rcases hv with rfl | rfl | rfl <;> simp [Var.inventoryPeriod] at ht <;> omega
    · simp only [demandLast, Constr.vars, Expr.vars, List.append_nil, List.cons_append,
        List.nil_append, List.mem_cons, List.mem_singleton, List.not_mem_nil, or_false] at hv
      rcases hv with rfl | rfl <;> simp [Var.inventoryPeriod] at ht
      omega

theorem instOnePeriod_loaded :
    read_problem_data inp0 loc0 fileOnePeriod = some instOnePeriod := rfl

/-- C18. On the instance loaded from the single-period file (`nP = 1`), the
model posted by `define_ilo_model` holds two demand constraints for the one
period of item 0, and the second of them mentions the inventory variable
`s_ilo[0][-1]`, whose index is outside `0 .. nP-1`. -/
theorem one_period_balance_reads_index_minus_one :
    instOnePeriod.nP = 1
    ∧ (demandConstrsOf instOnePeriod 0).map Constr.reads = [[Ref.d 0 0], [Ref.d 0 0]]
    ∧ ∃ k ∈ (define_ilo_model instOnePeriod HOP_def).constrs, ∃ v ∈ k.vars, ∃ t,
        v.inventoryPeriod = some t ∧ ¬ (0 ≤ t ∧ t < instOnePeriod.nP) := by
  have hP : instOnePeriod.nP = 1 := by decide
  have hI : instOnePeriod.nI = 1 := by decide
  refine ⟨hP, ?_, ?_⟩
  · simp [demandConstrsOf, demandFirst, demandMid, demandLast, Constr.reads, Expr.reads, hP,
      loop]
  · refine ⟨demandLast instOnePeriod 0, ?_, Var.s_ilo 0 (instOnePeriod.nP - 2), ?_,
      instOnePeriod.nP - 2, rfl, ?_⟩
    · rw [mem_model]
      exact Or.inr (Or.inl ((mem_demandConstrs instOnePeriod _).2
        ⟨0, by rw [hI]; decide, (mem_demandConstrsOf instOnePeriod 0 _).2 (Or.inr (Or.inr rfl))⟩))
    · simp [demandLast, Constr.vars, Expr.vars]
    · rw [hP]
      decide

/-! ## Command line -/

/-- When the option loop returns code 0, the file flag was already set or one of
the remaining arguments starts with `-f`. -/
theorem parseLoop_zero (args : List String) (i : Int) (g g' : Globals) (setFile skip : Bool)
    (hi : 1 ≤ i) (h : parseLoop i args g setFile skip = some (0, g')) :
    setFile = true ∨ ∃ a ∈ args, isFileOption a = true := by
  induction args generalizing i g setFile skip with
  | nil =>
    cases skip <;> cases setFile <;> simp [parseLoop] at h ⊢
  | cons option rest ih =>
    cases skip with
    | true =>
      rw [parseLoop] at h
      rcases ih (i + 1) g setFile false (by omega) h with h1 | ⟨a, ha, hf⟩
      · exact Or.inl h1
      · exact Or.inr ⟨a, List.mem_cons_of_mem _ ha, hf⟩
    | false =>
      rw [parseLoop] at h
      cases hopt : option.toList with
      | nil =>
        rw [hopt] at h
        simp only [Option.some.injEq, Prod.mk.injEq] at h
        omega
      | cons c cs =>
        rw [hopt] at h
        simp only at h
        by_cases hc : c = '-'
        · rw [if_neg (by simpa using hc)] at h
          cases cs with
          | nil =>
            simp only [Option.some.injEq, Prod.mk.injEq] at h
            omega
          | cons c1 cs' =>
            simp only at h
            by_cases hf : c1 = 'f'
            · right
              refine ⟨option, List.mem_cons_self _ _, ?_⟩
              unfold isFileOption
              rw [hopt]
              simp [hc, hf]
            · rw [if_neg hf] at h
              have cont : ∀ g1 sk, parseLoop (i + 1) rest g1 setFile sk = some (0, g') →
                  setFile = true ∨ ∃ a ∈ option :: rest, isFileOption a = true := by
                intro g1 sk hh
                rcases ih (i + 1) g1 setFile sk (by omega) hh with h1 | ⟨a, ha, hfa⟩
                · exact Or.inl h1
                · exact Or.inr ⟨a, List.mem_cons_of_mem _ ha, hfa⟩
              by_cases ht : c1 = 't'
              · rw [if_pos ht] at h
                cases hr : rest.head? with
                | none => rw [hr] at h; simp at h
                | some v => rw [hr] at h; exact cont _ _ h
              · rw [if_neg ht] at h
                by_cases hi' : c1 = 'i'
                · rw [if_pos hi'] at h
                  cases hr : rest.head? with
                  | none => rw [hr] at h; simp at h
                  | some v => rw [hr] at h; exact cont _ _ h
                · rw [if_neg hi'] at h
                  by_cases hh : c1 = 'h'
                  · rw [if_pos hh] at h
                    simp at h
                  · rw [if_neg hh] at h
                    exact cont _ _ h
        · rw [if_pos (by simpa using hc)] at h
          simp only [Option.some.injEq, Prod.mk.injEq] at h
          omega

/-- The code 0 of `parseOptions` needs an argument that starts with `-f`. -/
theorem parseOptions_zero (argv : List String) (g g' : Globals)
    (h : parseOptions argv g = some (0, g')) : ∃ a ∈ argv.tail, isFileOption a = true := by
  unfold parseOptions at h
  simp only at h
  split at h
  · simp at h
  · rcases parseLoop_zero _ 1 _ g' false false (le_refl _) h with h1 | h1
    · simp at h1
    · exact h1

/-- C14. On the argument vector `dw -f`, where the option `-f` is the last
argument and no path follows it, `parseOptions` returns code 0 and leaves the
null pointer `argv[argc]` in `_FILENAME`, and `main` goes on to load the
instance instead of leaving with `exit(1)`. -/
theorem file_option_without_path_accepted :
    parseOptions ["dw", "-f"] globals0
        = some (0, { _FILENAME := none, time_limit := TIME_LIMIT_def, maxI := HOP_def })
    ∧ main_start ["dw", "-f"] globals0
        = some (Start.load { _FILENAME := none, time_limit := TIME_LIMIT_def, maxI := HOP_def }) := by
  constructor <;> decide

/-! ## The loader: what it accepts and what it stores -/

theorem readDouble_fst (old : ℚ) (s : List ℚ) : (readDouble old s).1 = s.head?.getD old := by
  cases s <;> rfl

theorem readDouble_snd (old : ℚ) (s : List ℚ) : (readDouble old s).2 = s.drop 1 := by
  cases s <;> rfl

theorem readInt_snd (old : Int) (s : List ℚ) : (readInt old s).2 = s.drop 1 := by
  cases s <;> rfl

theorem readInt_intCast (old n : Int) (rest : List ℚ) :
    readInt old ((n : ℚ) :: rest) = (n, rest) := by
  simp [readInt]

theorem itemStep_stream (st : ReadState) (i : Int) :
    (itemStep st i).stream = st.stream.drop 4 := by
  unfold itemStep
  rw [foldl_itemCell]
  simp [readDouble_snd]

theorem itemStep_nP (st : ReadState) (i : Int) : (itemStep st i).inp.nP = st.inp.nP := by
  unfold itemStep
  rw [foldl_itemCell]

theorem itemStep_h (st : ReadState) (i i' t' : Int) :
    (itemStep st i).inp.h i' t'
      = if i' = i ∧ (0 ≤ t' ∧ t' < st.inp.nP) then (st.stream.drop 1).head?.getD st.h1
        else st.inp.h i' t' := by
  unfold itemStep
  rw [foldl_itemCell]
  simp [readDouble_snd, readDouble_fst, mem_loop]

theorem itemStep_m (st : ReadState) (i i' t' : Int) :
    (itemStep st i).inp.m i' t'
      = if i' = i ∧ (0 ≤ t' ∧ t' < st.inp.nP) then (st.stream.drop 2).head?.getD st.m1
        else st.inp.m i' t' := by
  unfold itemStep
  rw [foldl_itemCell]
  simp [readDouble_snd, readDouble_fst, mem_loop]

theorem itemStep_f (st : ReadState) (i i' t' : Int) :
    (itemStep st i).inp.f i' t'
      = if i' = i ∧ (0 ≤ t' ∧ t' < st.inp.nP) then (st.stream.drop 3).head?.getD st.f1
        else st.inp.f i' t' := by
  unfold itemStep
  rw [foldl_itemCell]
  simp [readDouble_snd, readDouble_fst, mem_loop]

theorem head?_drop_drop (s0 : List ℚ) (a b : Nat) :
    ((s0.drop a).drop b).head? = s0[a + b]? := by
  rw [List.drop_drop, List.head?_drop, Nat.add_comm]

theorem itemStep_rowInv (s0 : List ℚ) (nP : Int) (k : Nat) (st : ReadState)
    (h : RowInv s0 nP k st) : RowInv s0 nP (k + 1) (itemStep st k) := by
  obtain ⟨h1, h2, h3, h4, h5⟩ := h
  refine ⟨?_, ?_, ?_, ?_, ?_⟩
  · rw [itemStep_stream, h1, List.drop_drop]
    congr 1
  · rw [itemStep_nP, h2]
  · intro j hj t ht v hv
    rw [itemStep_h, h2]
    by_cases e : j = k
    · subst e
      rw [if_pos ⟨rfl, ht⟩, h1, head?_drop_drop, hv]
      rfl
    · rw [if_neg (by intro hh; exact e (by exact_mod_cast hh.1))]
      exact h3 j (by omega) t ht v hv
  · intro j hj t ht v hv
    rw [itemStep_m, h2]
    by_cases e : j = k
    · subst e
      rw [if_pos ⟨rfl, ht⟩, h1, head?_drop_drop, hv]
      rfl
    · rw [if_neg (by intro hh; exact e (by exact_mod_cast hh.1))]
      exact h4 j (by omega) t ht v hv
  · intro j hj t ht v hv
    rw [itemStep_f, h2]
    by_cases e : j = k
    · subst e
      rw [if_pos ⟨rfl, ht⟩, h1, head?_drop_drop, hv]
      rfl
    · rw [if_neg (by intro hh; exact e (by exact_mod_cast hh.1))]
      exact h5 j (by omega) t ht v hv

theorem foldl_itemStep_rowInv (st0 : ReadState) (k : Nat) :
    RowInv st0.stream st0.inp.nP k ((loop 0 k).foldl itemStep st0) := by
  induction k with
  | zero =>
    rw [show ((0 : Nat) : Int) = 0 by rfl, loop_eq_nil 0 0 (le_refl _)]
    exact ⟨by simp, rfl, fun j hj => absurd hj (by omega), fun j hj => absurd hj (by omega),
      fun j hj => absurd hj (by omega)⟩
  | succ k ih =>
    rw [show ((k + 1 : Nat) : Int) = (k : Int) + 1 by push_cast; ring,
      loop_succ 0 k (by omega), List.foldl_append]
    exact itemStep_rowInv _ _ k _ ih

/-- The rows that a successful load stores for the items: the holding cost,
setup time and setup cost of item `j` are the tokens 4j+4, 4j+5 and 4j+6 of the
file, wherever the file has them. -/
theorem read_problem_data_rows (inp : INSTANCE) (loc : Locals) (file : List ℚ) (r : INSTANCE)
    (h : read_problem_data inp loc file = some r) (j : Nat) (t : Int)
    (hj : (j : Int) < r.nI) (ht : 0 ≤ t ∧ t < r.nP) :
    (∀ v, file[4 * j + 4]? = some v → r.h j t = v)
    ∧ (∀ v, file[4 * j + 5]? = some v → r.m j t = v)
    ∧ (∀ v, file[4 * j + 6]? = some v → r.f j t = v) := by
  unfold read_problem_data at h
  simp only at h
  split at h
  · exact absurd h (by simp)
  · rename_i hneg
    simp only [Option.some.injEq] at h
    generalize hst : ({ inp := { inp with nI := (readInt inp.nI file).1,
                                          nP := (readInt inp.nP (readInt inp.nI file).2).1,
                                          cap := fillCap inp.cap (readInt inp.nP (readInt inp.nI file).2).1
                                            (readInt loc.temp (readInt inp.nP (readInt inp.nI file).2).2).1 }
                        stream := (readInt loc.temp (readInt inp.nP (readInt inp.nI file).2).2).2
                        a1 := loc.a1, h1 := loc.h1, m1 := loc.m1, f1 := loc.f1 } : ReadState) = st0 at h
    have hS : st0.stream = file.drop 3 := by
      rw [← hst]
      simp only [readInt_snd, List.drop_drop]
    have hinv := readItems_inv st0
    have hd := readDemand_inp (readItems st0)
    rw [computeMaxProd_eq, hd] at h
    subst h
    simp only [hinv.nI_eq, hinv.nP_eq] at hj ht ⊢
    obtain ⟨n, hn⟩ : ∃ n : Nat, st0.inp.nI = n := ⟨st0.inp.nI.toNat, by omega⟩
    have hrow := foldl_itemStep_rowInv st0 n
    rw [← hn] at hrow
    change RowInv st0.stream st0.inp.nP n (readItems st0) at hrow
    have hjn : j < n := by omega
    have idx : ∀ c, file[4 * j + (c + 3)]? = st0.stream[4 * j + c]? := by
      intro c
      rw [hS, List.getElem?_drop]
      congr 1
      omega
    refine ⟨?_, ?_, ?_⟩
    · intro v hv
      exact hrow.h_eq j hjn t ht v (by rw [← idx 1]; exact hv)
    · intro v hv
      exact hrow.m_eq j hjn t ht v (by rw [← idx 2]; exact hv)
    · intro v hv
      exact hrow.f_eq j hjn t ht v (by rw [← idx 3]; exact hv)

theorem read_problem_data_c (inp : INSTANCE) (loc : Locals) (file : List ℚ) (r : INSTANCE)
    (h : read_problem_data inp loc file = some r) (j t : Int)
    (hj : 0 ≤ j ∧ j < r.nI) (ht : 0 ≤ t ∧ t < r.nP) : r.c j t = 0 := by
  unfold read_problem_data at h
  simp only at h
  split at h
  · exact absurd h (by simp)
  · simp only [Option.some.injEq] at h
    generalize ({ inp := { inp with nI := (readInt inp.nI file).1,
                                    nP := (readInt inp.nP (readInt inp.nI file).2).1,
                                    cap := fillCap inp.cap (readInt inp.nP (readInt inp.nI file).2).1
                                      (readInt loc.temp (readInt inp.nP (readInt inp.nI file).2).2).1 }
                  stream := (readInt loc.temp (readInt inp.nP (readInt inp.nI file).2).2).2
                  a1 := loc.a1, h1 := loc.h1, m1 := loc.m1, f1 := loc.f1 } : ReadState) = st0 at h
    have hinv := readItems_inv st0
    have hd := readDemand_inp (readItems st0)
    rw [computeMaxProd_eq, hd] at h
    subst h
    simp only [hinv.nI_eq, hinv.nP_eq] at hj ht ⊢
    rw [hinv.c_eq]
    simp [mem_loop, hj, ht]

/-- C13. For every instance file and every `(j,t)` in range, after
`read_problem_data` the unit production cost `c[j][t]` is 0 and the unit
production time `a[j][t]` is 1 whatever the file gives as production time, while
`h[j][t]`, `m[j][t]` and `f[j][t]` are the holding cost, setup time and setup
cost of item `j` in the file (its tokens 4j+4, 4j+5 and 4j+6), for every period
`t`. -/
theorem loader_item_rows (inp : INSTANCE) (loc : Locals) (file : List ℚ) (r : INSTANCE)
    (h : read_problem_data inp loc file = some r) (j t : Int)
    (hj : 0 ≤ j ∧ j < r.nI) (ht : 0 ≤ t ∧ t < r.nP) :
    r.c j t = 0 ∧ r.a j t = 1
    ∧ (∀ v, file[(4 * j + 4).toNat]? = some v → r.h j t = v)
    ∧ (∀ v, file[(4 * j + 5).toNat]? = some v → r.m j t = v)
    ∧ (∀ v, file[(4 * j + 6).toNat]? = some v → r.f j t = v) := by
  obtain ⟨n, rfl⟩ : ∃ n : Nat, j = n := ⟨j.toNat, by omega⟩
  have hrows := read_problem_data_rows inp loc file r h n t hj.2 ht
  have e4 : (4 * (n : Int) + 4).toNat = 4 * n + 4 := by omega
  have e5 : (4 * (n : Int) + 5).toNat = 4 * n + 5 := by omega
  have e6 : (4 * (n : Int) + 6).toNat = 4 * n + 6 := by omega
  rw [e4, e5, e6]
  exact ⟨read_problem_data_c inp loc file r h n t hj ht,
    (read_problem_data_some inp loc file r h).2.2.1 n t hj ht, hrows⟩

/-- Witness for C13, at the capacity-100 scenario file, item 1 and period 2. -/
theorem loader_item_rows_witness :
    (read_problem_data inp0 loc0 fileCap100 = some instCap100
      ∧ (0 ≤ (1 : Int) ∧ (1 : Int) < instCap100.nI) ∧ (0 ≤ (2 : Int) ∧ (2 : Int) < instCap100.nP))
    ∧ instCap100.c 1 2 = 0 ∧ instCap100.a 1 2 = 1
    ∧ instCap100.h 1 2 = 2 ∧ instCap100.m 1 2 = 5 ∧ instCap100.f 1 2 = 50 :=
  have hw := loader_item_rows inp0 loc0 fileCap100 instCap100 rfl 1 2 (by decide) (by decide)
  ⟨⟨rfl, by decide, by decide⟩, hw.1, hw.2.1, hw.2.2.1 2 rfl, hw.2.2.2.1 5 rfl,
    hw.2.2.2.2 50 rfl⟩

theorem instNoItems_loaded : read_problem_data inp0 loc0 fileNoItems = some instNoItems := rfl

theorem instNegative_loaded : read_problem_data inp0 loc0 fileNegative = some instNegative := rfl

theorem instHeaderOnly_loaded :
    read_problem_data inp0 loc0 fileHeaderOnly = some instHeaderOnly := rfl

/-- C12 (counterexample). `read_problem_data` returns a populated record for a
file with zero items and periods, for a file with a negative holding cost and a
negative demand (both stored as read), and for a file that ends after its
header, 14 values short of the 17 it announces. -/
theorem loader_accepts_bad_files :
    (read_problem_data inp0 loc0 fileNoItems = some instNoItems
      ∧ instNoItems.nI = 0 ∧ instNoItems.nP = 0)
    ∧ (read_problem_data inp0 loc0 fileNegative = some instNegative
      ∧ instNegative.h 0 0 = -2 ∧ instNegative.d 0 0 = -4)
    ∧ (read_problem_data inp0 loc0 fileHeaderOnly = some instHeaderOnly
      ∧ (fileHeaderOnly.length : Int)
          < instHeaderOnly.nI * 4 + instHeaderOnly.nI * instHeaderOnly.nP + 3) := by
  refine ⟨⟨rfl, by decide, by decide⟩, ⟨rfl, ?_, ?_⟩, ⟨rfl, by decide⟩⟩
  · exact (read_problem_data_rows inp0 loc0 fileNegative instNegative rfl 0 0
      (by decide) (by decide)).1 (-2) rfl
  · decide

theorem read_problem_data_counts (inp : INSTANCE) (loc : Locals) (file : List ℚ) (r : INSTANCE)
    (h : read_problem_data inp loc file = some r) :
    r.nI = (readInt inp.nI file).1 ∧ r.nP = (readInt inp.nP (readInt inp.nI file).2).1 := by
  unfold read_problem_data at h
  simp only at h
  split at h
  · exact absurd h (by simp)
  · simp only [Option.some.injEq] at h
    generalize hst : ({ inp := { inp with nI := (readInt inp.nI file).1,
                                          nP := (readInt inp.nP (readInt inp.nI file).2).1,
                                          cap := fillCap inp.cap (readInt inp.nP (readInt inp.nI file).2).1
                                            (readInt loc.temp (readInt inp.nP (readInt inp.nI file).2).2).1 }
                        stream := (readInt loc.temp (readInt inp.nP (readInt inp.nI file).2).2).2
                        a1 := loc.a1, h1 := loc.h1, m1 := loc.m1, f1 := loc.f1 } : ReadState) = st0 at h
    have hI : st0.inp.nI = (readInt inp.nI file).1 := by rw [← hst]
    have hP : st0.inp.nP = (readInt inp.nP (readInt inp.nI file).2).1 := by rw [← hst]
    have hinv := readItems_inv st0
    have hd := readDemand_inp (readItems st0)
    rw [computeMaxProd_eq, hd] at h
    subst h
    simp only [hinv.nI_eq, hinv.nP_eq]
    exact ⟨hI, hP⟩

theorem read_problem_data_none (inp : INSTANCE) (loc : Locals) (file : List ℚ) :
    read_problem_data inp loc file = none
      ↔ ((readInt inp.nP (readInt inp.nI file).2).1 < 0 ∨ (readInt inp.nI file).1 < 0) := by
  unfold read_problem_data
  simp only
  split <;> simp_all

/-- C12 (amended). `read_problem_data` validates nothing. For every stream that
starts with the integer counts `nI` and `nP`, whatever follows them (values of
any sign, too few values or none), it returns a populated record with these
counts, unless one of the counts is negative: then, and only then, it fails, in
the allocation of an array of negative size. -/
theorem loader_fails_only_on_negative_count (inp : INSTANCE) (loc : Locals) (nI nP : Int)
    (rest : List ℚ) :
    (read_problem_data inp loc ((nI : ℚ) :: (nP : ℚ) :: rest) = none ↔ (nP < 0 ∨ nI < 0))
    ∧ ∀ r, read_problem_data inp loc ((nI : ℚ) :: (nP : ℚ) :: rest) = some r →
        r.nI = nI ∧ r.nP = nP := by
  constructor
  · rw [read_problem_data_none]
    simp only [readInt_intCast]
  · intro r hr
    have := read_problem_data_counts inp loc _ r hr
    simpa only [readInt_intCast] using this

/-! ## The failure value of `solve_CLSP` -/

/-- C21. For every instance whose setup, production and holding costs are not
negative on the cells in range, and every assignment within the bounds declared
in `solve_MIP`, the objective posted by `define_ilo_model` has a value of at
least 0; hence what `solve_CLSP` returns for a solved model is never the -100
that it returns when the solver fails. -/
theorem objective_nonneg (inp : INSTANCE) (maxI : Int) (A : Assignment)
    (hf : ∀ j t, (0 ≤ j ∧ j < inp.nI) → (0 ≤ t ∧ t < inp.nP) → 0 ≤ inp.f j t)
    (hc : ∀ j t, (0 ≤ j ∧ j < inp.nI) → (0 ≤ t ∧ t < inp.nP) → 0 ≤ inp.c j t)
    (hh : ∀ j t, (0 ≤ j ∧ j < inp.nI) → (0 ≤ t ∧ t < inp.nP) → 0 ≤ inp.h j t)
    (hb : withinBounds inp A) :
    0 ≤ (define_ilo_model inp maxI).obj.eval A
    ∧ solve_CLSP (define_ilo_model inp maxI) Cplex.failed = -100
    ∧ solve_CLSP (define_ilo_model inp maxI) (Cplex.solved A)
        ≠ solve_CLSP (define_ilo_model inp maxI) Cplex.failed := by
  rw [withinBounds_iff] at hb
  have hobj : (define_ilo_model inp maxI).obj = totCost inp := rfl
  have h0 : 0 ≤ (define_ilo_model inp maxI).obj.eval A := by
    rw [hobj, totCost_eval]
    apply Finset.sum_nonneg
    intro j hj
    rw [Finset.mem_Ico] at hj
    apply add_nonneg
    · exact mul_nonneg (by norm_num) (hb.1 j hj)
    · apply Finset.sum_nonneg
      intro t ht
      rw [Finset.mem_Ico] at ht
      obtain ⟨hy, hx, hs⟩ := hb.2 j t hj ht
      have hy0 : 0 ≤ A (Var.y_ilo j t) := by
        rcases hy with e | e
        · rw [e]
        · rw [e]
          exact zero_le_one
      exact add_nonneg
        (add_nonneg (mul_nonneg (hf j t hj ht) hy0) (mul_nonneg (hc j t hj ht) hx))
        (mul_nonneg (hh j t hj ht) hs)
  refine ⟨h0, rfl, ?_⟩
  show (define_ilo_model inp maxI).obj.eval A ≠ -100
  intro h
  rw [h] at h0
  norm_num at h0

/-- Witness for C21, at the capacity-100 scenario and the plan `planLotForLot`. -/
theorem objective_nonneg_witness :
    ((∀ j t, (0 ≤ j ∧ j < instCap100.nI) → (0 ≤ t ∧ t < instCap100.nP) →
        0 ≤ instCap100.f j t)
      ∧ (∀ j t, (0 ≤ j ∧ j < instCap100.nI) → (0 ≤ t ∧ t < instCap100.nP) →
        0 ≤ instCap100.c j t)
      ∧ (∀ j t, (0 ≤ j ∧ j < instCap100.nI) → (0 ≤ t ∧ t < instCap100.nP) →
        0 ≤ instCap100.h j t)
      ∧ withinBounds instCap100 planLotForLot)
    ∧ 0 ≤ (define_ilo_model instCap100 HOP_def).obj.eval planLotForLot
    ∧ solve_CLSP (define_ilo_model instCap100 HOP_def) (Cplex.solved planLotForLot) ≠ -100 :=
  have hv : ∀ j t, (0 ≤ j ∧ j < instCap100.nI) → (0 ≤ t ∧ t < instCap100.nP) →
      instCap100.f j t = 50 ∧ instCap100.c j t = 0 ∧ instCap100.h j t = 2 := by
    intro j t hj ht
    rw [instCap100_fields.1] at hj
    rw [instCap100_fields.2.1] at ht
    exact (instCap100_fields.2.2 j t hj ht).2.2.2.2.2
  have hf : ∀ j t, (0 ≤ j ∧ j < instCap100.nI) → (0 ≤ t ∧ t < instCap100.nP) →
      0 ≤ instCap100.f j t := fun j t hj ht => by rw [(hv j t hj ht).1]; norm_num
  have hc : ∀ j t, (0 ≤ j ∧ j < instCap100.nI) → (0 ≤ t ∧ t < instCap100.nP) →
      0 ≤ instCap100.c j t := fun j t hj ht => by rw [(hv j t hj ht).2.1]
  have hh : ∀ j t, (0 ≤ j ∧ j < instCap100.nI) → (0 ≤ t ∧ t < instCap100.nP) →
      0 ≤ instCap100.h j t := fun j t hj ht => by rw [(hv j t hj ht).2.2]; norm_num
  have hw := objective_nonneg instCap100 HOP_def planLotForLot hf hc hh planLotForLot_feasible.1
  ⟨⟨hf, hc, hh, planLotForLot_feasible.1⟩, hw.1, by
    have h3 := hw.2.2
    rw [hw.2.1] at h3
    exact h3⟩

end Mimpls
